import Mathlib

/-!
Shallow embedding of the `dino` memory allocator (Go package `dino`,
file containing `Memory`, `WorstFit`, `Allocate`, `AllocateWorstFit`,
`ReleaseProcess`, `Layout`, `TotalFree`).

The Go type `Memory []*Process` is a fixed-length slice of pointers to
process objects; a `nil` entry is a free cell.  We model a cell as
`Option Proc`, where `Proc` carries the immutable identity of a process
object (`ID`, `Name`, `SizeInKB`).  The two allocator-owned mutable
fields (`IsAllocated`, `MemoryAddress`) live in a separate record `PCB`
that operations thread explicitly.  Go pointer equality between cells
(used by `Layout`) is modelled as equality of the stored `Proc` records,
which coincides with object identity under the documented requirement
that process IDs are unique.

Go `error` results are modelled as explicit error kinds (Go builds them
with `errors.New`; each kind below corresponds to one distinct message in
the source).  A Go `panic` (the explicit one in `ReleaseProcess`, and the
runtime nil-pointer dereference that `m[i].ID` performs on a free cell)
is modelled as a dedicated outcome constructor.
-/

namespace Dino

/-- Immutable identity of a Go `Process` object: `ID`, `Name`, `SizeInKB`. -/
structure Proc where
  id : String
  name : String
  sizeInKB : Int
deriving DecidableEq, Repr

/-- The allocator-owned mutable fields of a `Process`:
`IsAllocated` and `MemoryAddress`. -/
structure PCB where
  isAllocated : Bool
  memoryAddress : Int
deriving DecidableEq, Repr

/-- `Memory []*Process`: a list of cells, `none` = free (`nil`). -/
abbrev Memory := List (Option Proc)

/-- Read cell `i` of the memory; `none` when `i` is outside `[0, len)`. -/
def mget (m : Memory) (i : Int) : Option (Option Proc) :=
  if 0 ≤ i then m[i.toNat]? else none

/-- Write cell `i` (no-op outside bounds; the Go code only writes
in-bounds indices, guarded by `checkBounds`). -/
def setCell (m : Memory) (i : Int) (v : Option Proc) : Memory :=
  if 0 ≤ i then m.set i.toNat v else m

/-- Write `v` into the `k` consecutive cells starting at `i`
(the ascending `for` loops in `Allocate` and `hardRelease`). -/
def writeRun (m : Memory) (v : Option Proc) (i : Int) : Nat → Memory
  | 0 => m
  | k + 1 => writeRun (setCell m i v) v (i + 1) k

/-- The two distinct error messages of `checkBounds`. -/
inductive BoundsErr where
  | negStart
  | outOfMemory
deriving DecidableEq, Repr

/-- `func (m Memory) checkBounds(start, offset int) error`. -/
def checkBounds (m : Memory) (start offset : Int) : Option BoundsErr :=
  if start < 0 then some .negStart
  else if start + offset > (m.length : Int) then some .outOfMemory
  else none

/-- The scanning loop of `WorstFit`, including the post-loop final
comparison.  State: current index `i`, best run `(bs, bsz)` seen so far
(`(-1, 0)` when none), current run `(cs, csz)`, and `previousWasEmpty`.
Returns the Go function's `(start, offset)` pair. -/
def wfLoop : Memory → Int → Int → Int → Int → Int → Bool → Int × Int
  | [], _, bs, bsz, cs, csz, _ =>
      if csz > bsz then (cs, csz) else (bs, bsz)
  | none :: rest, i, bs, bsz, cs, csz, pe =>
      if pe then wfLoop rest (i + 1) bs bsz cs (csz + 1) true
      else wfLoop rest (i + 1) bs bsz i 1 true
  | some _ :: rest, i, bs, bsz, cs, csz, pe =>
      if pe then
        if csz > bsz then wfLoop rest (i + 1) cs csz cs csz false
        else wfLoop rest (i + 1) bs bsz cs csz false
      else wfLoop rest (i + 1) bs bsz cs csz false

/-- `func (m Memory) WorstFit(sizeToFit int) (start, offset int, err error)`.
The boolean is `true` iff the Go function returns the
`InsufficientSpace` error. -/
def WorstFit (m : Memory) (sizeToFit : Int) : Int × Int × Bool :=
  let p := wfLoop m 0 (-1) 0 (-1) 0 false
  (p.1, p.2, decide (sizeToFit > p.2))

/-- `func (m Memory) HasSpace(size int) bool`. -/
def HasSpace (m : Memory) (size : Int) : Bool :=
  !(WorstFit m size).2.2

/-- The scanning loop of `isEmpty`, over `offset.toNat` iterations
starting at `start` (the Go loop `for i := start; i < start+offset`). -/
def allFreeLoop (m : Memory) (i : Int) : Nat → Bool
  | 0 => true
  | k + 1 => (mget m i == some none) && allFreeLoop m (i + 1) k

/-- `func (m Memory) isEmpty(start, offset int) bool`. -/
def isEmpty (m : Memory) (start offset : Int) : Bool :=
  match checkBounds m start offset with
  | some _ => false
  | none => allFreeLoop m start offset.toNat

/-- Error kinds of `Allocate` / `AllocateWorstFit`, one per distinct
`errors.New` message reachable from them. -/
inductive AllocErr where
  | nilProcess
  | alreadyAllocated
  | boundsNeg
  | boundsOver
  | spaceOccupied
  | missingIdentity
  | insufficientSpace
deriving DecidableEq, Repr

/-- `OutOfBounds` in the spec's vocabulary covers both `checkBounds`
messages. -/
def AllocErr.isOutOfBounds : AllocErr → Bool
  | .boundsNeg => true
  | .boundsOver => true
  | _ => false

/-- `func (m Memory) Allocate(p *Process, start int) (err error)`.
The `Option (Proc × PCB)` argument models the possibly-`nil` pointer;
on success the Go function mutates `m`, `p.IsAllocated` and
`p.MemoryAddress`, returned here as the new memory and `PCB`. -/
def Allocate : Memory → Option (Proc × PCB) → Int → Except AllocErr (Memory × PCB)
  | _, none, _ => .error .nilProcess
  | m, some (p, st), start =>
    if st.isAllocated then .error .alreadyAllocated
    else
      match checkBounds m start p.sizeInKB with
      | some .negStart => .error .boundsNeg
      | some .outOfMemory => .error .boundsOver
      | none =>
        if !isEmpty m start p.sizeInKB then .error .spaceOccupied
        else if p.id = "" then .error .missingIdentity
        else .ok (writeRun m (some p) start p.sizeInKB.toNat, ⟨true, start⟩)

/-- `func (m Memory) AllocateWorstFit(p *Process) (err error)`. -/
def AllocateWorstFit : Memory → Option (Proc × PCB) → Except AllocErr (Memory × PCB)
  | _, none => .error .nilProcess
  | m, some (p, st) =>
    if (WorstFit m p.sizeInKB).2.2 then .error .insufficientSpace
    else Allocate m (some (p, st)) (WorstFit m p.sizeInKB).1

/-- Outcome of `ReleaseProcess`: a normal return `(released, nil)`, a
returned error, or a panic (the explicit `CorruptedMemoryState` panic,
or the runtime nil dereference `m[i].ID` performs on a free cell). -/
inductive ROutcome where
  | ok (released : Bool)
  | errBounds (e : BoundsErr)
  | errMissingIdentity
  | errUnsafeRelease
  | panicCorrupted
  | panicNilDeref
deriving DecidableEq, Repr

/-- Result of `ReleaseProcess`: outcome plus the final memory and the
final allocator-owned fields of the process. -/
structure RResult where
  out : ROutcome
  mem : Memory
  ps : PCB
deriving DecidableEq, Repr

/-- The release loop of `ReleaseProcess`: walk `k` cells from index `i`,
clearing cells whose owner's `ID` matches `pid`; `been` is the Go
`beenReleased` flag.  A free cell makes the Go code dereference `nil`
(`m[i].ID`), modelled as `panicNilDeref`. -/
def releaseLoop (pid : String) : Memory → Int → Nat → Bool → ROutcome × Memory
  | m, _, 0, been => (.ok been, m)
  | m, i, k + 1, been =>
    match mget m i with
    | some (some q) =>
      if q.id = pid then releaseLoop pid (setCell m i none) (i + 1) k true
      else if been then (.panicCorrupted, m)
      else (.errUnsafeRelease, m)
    | _ => (.panicNilDeref, m)

/-- `func (m Memory) ReleaseProcess(p *Process) (bool, error)`.
Validation order as in the source: `checkBounds` on the recorded range
first, then the empty-`ID` check, then the cell-by-cell loop.  On full
success `IsAllocated` is set `false` and `MemoryAddress` to `-1`. -/
def ReleaseProcess (m : Memory) (p : Proc) (st : PCB) : RResult :=
  match checkBounds m st.memoryAddress p.sizeInKB with
  | some e => ⟨.errBounds e, m, st⟩
  | none =>
    if p.id = "" then ⟨.errMissingIdentity, m, st⟩
    else
      match releaseLoop p.id m st.memoryAddress p.sizeInKB.toNat false with
      | (.ok been, m2) => ⟨.ok been, m2, ⟨false, -1⟩⟩
      | (o, m2) => ⟨o, m2, st⟩

/-- `const FREE_BLOCK = string('▓')`. -/
def FREE_BLOCK : String := "▓"

/-- `type MemoryBlock struct { Start, Size int; Name string }`. -/
structure MemoryBlock where
  start : Int
  size : Int
  name : String
deriving DecidableEq, Repr

/-- `currentBlock.Size++`: increment the size of the block most recently
appended (the head of the reversed accumulator). -/
def bumpHead : List MemoryBlock → List MemoryBlock
  | [] => []
  | b :: bs => { b with size := b.size + 1 } :: bs

/-- The `Layout` scan.  `prev` is the previous cell's content (`none`
before index 0 — never compared there, as in the Go source where the
`m[i-1]` read is short-circuited at `i == 0`), `pe` is
`previousWasEmpty`, and `acc` holds the blocks in reverse order with the
current block at the head. -/
def layoutLoop : Memory → Int → Option (Option Proc) → Bool →
    List MemoryBlock → List MemoryBlock
  | [], _, _, _, acc => acc.reverse
  | c :: rest, i, prev, pe, acc =>
    if c = none ∧ pe = false then
      layoutLoop rest (i + 1) (some c) true
        (bumpHead ({ start := i, size := 0, name := FREE_BLOCK } :: acc))
    else if (c ≠ none ∧ i = 0) ∨ prev ≠ some c then
      layoutLoop rest (i + 1) (some c) false
        (bumpHead ({ start := i, size := 0,
                     name := match c with
                             | some q => q.name
                             | none => FREE_BLOCK } :: acc))
    else
      layoutLoop rest (i + 1) (some c) pe (bumpHead acc)

/-- `func (m Memory) Layout() MemoryLayout`. -/
def Layout (m : Memory) : List MemoryBlock :=
  layoutLoop m 0 none false []

/-- `func (m Memory) TotalFree() int`. -/
def TotalFree (m : Memory) : Nat :=
  m.countP (·.isNone)

/-! ### Basic lemmas about cell access and update -/

theorem length_setCell (m : Memory) (i : Int) (v : Option Proc) :
    (setCell m i v).length = m.length := by
  unfold setCell; split <;> simp

theorem mget_setCell_ne (m : Memory) (i j : Int) (v : Option Proc) (h : j ≠ i) :
    mget (setCell m i v) j = mget m j := by
  unfold setCell mget
  split
  · split
    · rw [List.getElem?_set_ne]
      omega
    · rfl
  · rfl

theorem mget_setCell_self (m : Memory) (i : Int) (v : Option Proc)
    (h0 : 0 ≤ i) (h1 : i < (m.length : Int)) :
    mget (setCell m i v) i = some v := by
  unfold setCell mget
  rw [if_pos h0, if_pos h0, List.getElem?_set_self]
  omega

theorem mget_eq_getElem (m : Memory) (j : Nat) : mget m (j : Int) = m[j]? := by
  simp [mget]

theorem mget_lt_length (m : Memory) (j : Int) (c : Option Proc)
    (h : mget m j = some c) : 0 ≤ j ∧ j < (m.length : Int) := by
  unfold mget at h
  split at h
  · rcases List.getElem?_eq_some.mp h with ⟨hlt, _⟩
    omega
  · exact absurd h (by simp)

theorem mget_total (m : Memory) (j : Int) (h0 : 0 ≤ j) (h1 : j < (m.length : Int)) :
    ∃ c, mget m j = some c := by
  unfold mget
  rw [if_pos h0]
  exact ⟨m[j.toNat], List.getElem?_eq_some.mpr ⟨by omega, rfl⟩⟩

theorem length_writeRun (v : Option Proc) :
    ∀ (k : Nat) (m : Memory) (i : Int), (writeRun m v i k).length = m.length := by
  intro k
  induction k with
  | zero => intro m i; rfl
  | succ k ih => intro m i; rw [writeRun, ih, length_setCell]

theorem mget_writeRun_out (v : Option Proc) :
    ∀ (k : Nat) (m : Memory) (i j : Int), (j < i ∨ i + k ≤ j) →
      mget (writeRun m v i k) j = mget m j := by
  intro k
  induction k with
  | zero => intro m i j _; rfl
  | succ k ih =>
    intro m i j h
    rw [writeRun, ih _ _ _ (by omega), mget_setCell_ne]
    omega

theorem mget_writeRun_in (v : Option Proc) :
    ∀ (k : Nat) (m : Memory) (i j : Int), 0 ≤ i → i ≤ j → j < i + k →
      j < (m.length : Int) → mget (writeRun m v i k) j = some v := by
  intro k
  induction k with
  | zero => intro m i j _ _ h _; omega
  | succ k ih =>
    intro m i j h0 h1 h2 h3
    rw [writeRun]
    rcases eq_or_lt_of_le h1 with rfl | hlt
    · rw [mget_writeRun_out _ _ _ _ _ (by omega)]
      exact mget_setCell_self _ _ _ h0 h3
    · exact ih (setCell m i v) (i + 1) j (by omega) (by omega) (by omega)
        (by rw [length_setCell]; omega)

theorem allFreeLoop_iff (m : Memory) :
    ∀ (k : Nat) (i : Int), allFreeLoop m i k = true ↔
      ∀ t : Nat, t < k → mget m (i + t) = some none := by
  intro k
  induction k with
  | zero => intro i; simp [allFreeLoop]
  | succ k ih =>
    intro i
    rw [allFreeLoop, Bool.and_eq_true, beq_iff_eq, ih]
    constructor
    · rintro ⟨h1, h2⟩ t ht
      match t with
      | 0 => simpa using h1
      | t + 1 =>
        have := h2 t (by omega)
        rw [show i + 1 + (t : Int) = i + ((t : Nat) + 1 : Nat) by push_cast; ring] at this
        exact this
    · intro h
      refine ⟨by simpa using h 0 (by omega), fun t ht => ?_⟩
      have := h (t + 1) (by omega)
      rw [show i + ((t : Nat) + 1 : Nat) = i + 1 + (t : Int) by push_cast; ring] at this
      exact this

/-! ### Characterizations of the release loop -/

theorem releaseLoop_zero (pid : String) (m : Memory) (i : Int) (been : Bool) :
    releaseLoop pid m i 0 been = (.ok been, m) := rfl

theorem releaseLoop_succ_occ (pid : String) (m : Memory) (i : Int) (k : Nat)
    (been : Bool) (q : Proc) (hq : mget m i = some (some q)) :
    releaseLoop pid m i (k + 1) been =
      if q.id = pid then releaseLoop pid (setCell m i none) (i + 1) k true
      else if been then (.panicCorrupted, m) else (.errUnsafeRelease, m) := by
  rw [releaseLoop, hq]

theorem releaseLoop_succ_free (pid : String) (m : Memory) (i : Int) (k : Nat)
    (been : Bool) (hq : mget m i = some none) :
    releaseLoop pid m i (k + 1) been = (.panicNilDeref, m) := by
  rw [releaseLoop, hq]

theorem releaseLoop_succ_oob (pid : String) (m : Memory) (i : Int) (k : Nat)
    (been : Bool) (hq : mget m i = none) :
    releaseLoop pid m i (k + 1) been = (.panicNilDeref, m) := by
  rw [releaseLoop, hq]

theorem releaseLoop_ok (pid : String) :
    ∀ (k : Nat) (m : Memory) (i : Int) (been b : Bool) (m2 : Memory),
      releaseLoop pid m i k been = (.ok b, m2) →
      (∀ t : Nat, t < k → ∃ q, mget m (i + t) = some (some q) ∧ q.id = pid) ∧
      m2 = writeRun m none i k ∧ b = (been || decide (0 < k)) := by
  intro k
  induction k with
  | zero =>
    intro m i been b m2 h
    rw [releaseLoop_zero] at h
    simp at h
    exact ⟨by omega, h.2.symm ▸ rfl, by simp [h.1]⟩
  | succ k ih =>
    intro m i been b m2 h
    rcases hc : mget m i with _ | c
    · rw [releaseLoop_succ_oob _ _ _ _ _ hc] at h; simp at h
    rcases c with _ | q
    · rw [releaseLoop_succ_free _ _ _ _ _ hc] at h; simp at h
    rw [releaseLoop_succ_occ _ _ _ _ _ _ hc] at h
    by_cases hid : q.id = pid
    · rw [if_pos hid] at h
      obtain ⟨hcells, hmem, hb⟩ := ih (setCell m i none) (i + 1) true b m2 h
      refine ⟨?_, ?_, by simp [hb]⟩
      · intro t ht
        match t with
        | 0 => exact ⟨q, by simpa using hc, hid⟩
        | t + 1 =>
          have := hcells t (by omega)
          rw [mget_setCell_ne _ _ _ _ (by omega),
            show i + 1 + (t : Int) = i + ((t : Nat) + 1 : Nat) by push_cast; ring] at this
          exact this
      · rw [writeRun]; exact hmem
    · rw [if_neg hid] at h
      cases been <;> simp at h

theorem releaseLoop_ok_of_all (pid : String) :
    ∀ (k : Nat) (m : Memory) (i : Int) (been : Bool),
      (∀ t : Nat, t < k → ∃ q, mget m (i + t) = some (some q) ∧ q.id = pid) →
      releaseLoop pid m i k been = (.ok (been || decide (0 < k)), writeRun m none i k) := by
  intro k
  induction k with
  | zero => intro m i been _; simp [releaseLoop_zero, writeRun]
  | succ k ih =>
    intro m i been h
    obtain ⟨q, hq, hid⟩ := h 0 (by omega)
    rw [show i + ((0 : Nat) : Int) = i by ring] at hq
    rw [releaseLoop_succ_occ _ _ _ _ _ _ hq, if_pos hid]
    have := ih (setCell m i none) (i + 1) true (fun t ht => by
      have := h (t + 1) (by omega)
      rw [show i + ((t : Nat) + 1 : Nat) = i + 1 + (t : Int) by push_cast; ring] at this
      rwa [mget_setCell_ne _ _ _ _ (by omega)])
    rw [this, writeRun]
    simp

theorem releaseLoop_first_mismatch (pid : String) (k : Nat) (m : Memory) (i : Int)
    (q : Proc) (hq : mget m i = some (some q)) (hne : q.id ≠ pid) :
    releaseLoop pid m i (k + 1) false = (.errUnsafeRelease, m) := by
  rw [releaseLoop_succ_occ _ _ _ _ _ _ hq, if_neg hne]
  simp

theorem releaseLoop_corrupted (pid : String) :
    ∀ (j k : Nat) (m : Memory) (i : Int) (been : Bool) (q : Proc),
      (∀ t : Nat, t < j → ∃ r, mget m (i + t) = some (some r) ∧ r.id = pid) →
      (1 ≤ j ∨ been = true) → j < k →
      mget m (i + j) = some (some q) → q.id ≠ pid →
      (releaseLoop pid m i k been).1 = .panicCorrupted := by
  intro j
  induction j with
  | zero =>
    intro k m i been q _ hd hk hq hne
    have hbeen : been = true := by
      rcases hd with h | h
      · omega
      · exact h
    match k, hk with
    | k + 1, _ =>
      rw [show i + ((0 : Nat) : Int) = i by ring] at hq
      rw [releaseLoop_succ_occ _ _ _ _ _ _ hq, if_neg hne, hbeen]
      simp
  | succ j ih =>
    intro k m i been q hcells hd hk hq hne
    obtain ⟨r, hr, hrid⟩ := hcells 0 (by omega)
    rw [show i + ((0 : Nat) : Int) = i by ring] at hr
    match k, hk with
    | k + 1, hk =>
      rw [releaseLoop_succ_occ _ _ _ _ _ _ hr, if_pos hrid]
      refine ih k (setCell m i none) (i + 1) true q (fun t ht => ?_) (by right; rfl)
        (by omega) ?_ hne
      · have := hcells (t + 1) (by omega)
        rw [show i + ((t : Nat) + 1 : Nat) = i + 1 + (t : Int) by push_cast; ring] at this
        rwa [mget_setCell_ne _ _ _ _ (by omega)]
      · rw [mget_setCell_ne _ _ _ _ (by omega),
          show i + 1 + (j : Int) = i + ((j : Nat) + 1 : Nat) by push_cast; ring]
        exact hq

theorem releaseLoop_no_nilDeref (pid : String) :
    ∀ (k : Nat) (m : Memory) (i : Int) (been : Bool),
      (∀ t : Nat, t < k → ∃ q, mget m (i + t) = some (some q)) →
      (releaseLoop pid m i k been).1 ≠ .panicNilDeref := by
  intro k
  induction k with
  | zero => intro m i been _; simp [releaseLoop_zero]
  | succ k ih =>
    intro m i been h
    obtain ⟨q, hq⟩ := h 0 (by omega)
    rw [show i + ((0 : Nat) : Int) = i by ring] at hq
    rw [releaseLoop_succ_occ _ _ _ _ _ _ hq]
    by_cases hid : q.id = pid
    · rw [if_pos hid]
      exact ih (setCell m i none) (i + 1) true (fun t ht => by
        have := h (t + 1) (by omega)
        rw [show i + ((t : Nat) + 1 : Nat) = i + 1 + (t : Int) by push_cast; ring] at this
        rwa [mget_setCell_ne _ _ _ _ (by omega)])
    · rw [if_neg hid]
      cases been <;> simp

/-! ### Inversion lemmas for validation -/

theorem checkBounds_none_iff (m : Memory) (s off : Int) :
    checkBounds m s off = none ↔ 0 ≤ s ∧ s + off ≤ (m.length : Int) := by
  unfold checkBounds
  split_ifs with h1 h2 <;> simp <;> omega

theorem isEmpty_true_iff (m : Memory) (s off : Int)
    (hb : checkBounds m s off = none) :
    isEmpty m s off = true ↔
      ∀ j : Int, s ≤ j → j < s + off → mget m j = some none := by
  unfold isEmpty
  rw [hb, allFreeLoop_iff]
  constructor
  · intro h j h1 h2
    have := h (j - s).toNat (by omega)
    rwa [show s + ((j - s).toNat : Int) = j by omega] at this
  · intro h t ht
    exact h (s + t) (by omega) (by omega)

theorem Allocate_ok_inv (m : Memory) (p : Proc) (st : PCB) (start : Int)
    (m1 : Memory) (st1 : PCB)
    (h : Allocate m (some (p, st)) start = .ok (m1, st1)) :
    st.isAllocated = false ∧ 0 ≤ start ∧ start + p.sizeInKB ≤ (m.length : Int) ∧
    (∀ j : Int, start ≤ j → j < start + p.sizeInKB → mget m j = some none) ∧
    p.id ≠ "" ∧ m1 = writeRun m (some p) start p.sizeInKB.toNat ∧
    st1 = ⟨true, start⟩ := by
  simp only [Allocate] at h
  by_cases ha : st.isAllocated
  · rw [if_pos ha] at h; simp at h
  rw [if_neg ha] at h
  rcases hcb : checkBounds m start p.sizeInKB with _ | e
  · rw [hcb] at h
    by_cases he : isEmpty m start p.sizeInKB
    · rw [he] at h
      simp only [Bool.not_true, Bool.false_eq_true, if_false] at h
      by_cases hid : p.id = ""
      · rw [if_pos hid] at h; simp at h
      · rw [if_neg hid] at h
        simp only [Except.ok.injEq, Prod.mk.injEq] at h
        obtain ⟨hcb1, hcb2⟩ := (checkBounds_none_iff m start p.sizeInKB).mp hcb
        exact ⟨by simpa using ha, hcb1, hcb2,
          (isEmpty_true_iff m start p.sizeInKB hcb).mp he, hid, h.1.symm, h.2.symm⟩
    · rw [Bool.not_eq_true] at he
      rw [he] at h
      simp at h
  · rw [hcb] at h
    cases e <;> simp at h

theorem AllocateWorstFit_ok_inv (m : Memory) (p : Proc) (st : PCB)
    (m1 : Memory) (st1 : PCB)
    (h : AllocateWorstFit m (some (p, st)) = .ok (m1, st1)) :
    ∃ s, Allocate m (some (p, st)) s = .ok (m1, st1) := by
  simp only [AllocateWorstFit] at h
  split at h
  · simp at h
  · exact ⟨_, h⟩

theorem ReleaseProcess_out (m : Memory) (p : Proc) (st : PCB)
    (hb : checkBounds m st.memoryAddress p.sizeInKB = none) (hid : p.id ≠ "") :
    (ReleaseProcess m p st).out =
      (releaseLoop p.id m st.memoryAddress p.sizeInKB.toNat false).1 := by
  unfold ReleaseProcess
  rw [hb]
  simp only [if_neg hid]
  rcases h : releaseLoop p.id m st.memoryAddress p.sizeInKB.toNat false with ⟨o, mm⟩
  cases o <;> simp

theorem ReleaseProcess_eq_of_ok (m m2 : Memory) (p : Proc) (st : PCB) (b : Bool)
    (hb : checkBounds m st.memoryAddress p.sizeInKB = none) (hid : p.id ≠ "")
    (hrl : releaseLoop p.id m st.memoryAddress p.sizeInKB.toNat false = (.ok b, m2)) :
    ReleaseProcess m p st = ⟨.ok b, m2, ⟨false, -1⟩⟩ := by
  unfold ReleaseProcess
  rw [hb, if_neg hid, hrl]

theorem mem_ext (m m2 : Memory) (hlen : m.length = m2.length)
    (h : ∀ j : Int, 0 ≤ j → j < (m.length : Int) → mget m j = mget m2 j) :
    m = m2 := by
  apply List.ext_getElem?
  intro n
  by_cases hn : n < m.length
  · have := h n (by omega) (by omega)
    rwa [mget_eq_getElem, mget_eq_getElem] at this
  · rw [List.getElem?_eq_none (by omega), List.getElem?_eq_none (by omega)]

/-! ### Claim theorems: Allocate and ReleaseProcess validation -/

/-- C4: `Allocate` validates in the source's exact order, the first failure
winning: nil process, then `AlreadyAllocated`, then bounds (`OutOfBounds`
when `start < 0` or `start + size > N`), then `SpaceOccupied`, then
`MissingIdentity`.  On success every cell of `[start, start+SizeInKB)` is
set to reference the process, `IsAllocated` becomes true and
`MemoryAddress` becomes `start`, and every other cell is unchanged
(failures in the source return before the mutation loop). -/
theorem allocate_spec (m : Memory) (p : Proc) (st : PCB) (start : Int) :
    (Allocate m none start = .error .nilProcess)
    ∧ (st.isAllocated = true →
        Allocate m (some (p, st)) start = .error .alreadyAllocated)
    ∧ (st.isAllocated = false →
        ¬(0 ≤ start ∧ start + p.sizeInKB ≤ (m.length : Int)) →
        ∃ e, Allocate m (some (p, st)) start = .error e ∧ e.isOutOfBounds = true)
    ∧ (st.isAllocated = false → 0 ≤ start → start + p.sizeInKB ≤ (m.length : Int) →
        ¬(∀ j : Int, start ≤ j → j < start + p.sizeInKB → mget m j = some none) →
        Allocate m (some (p, st)) start = .error .spaceOccupied)
    ∧ (st.isAllocated = false → 0 ≤ start → start + p.sizeInKB ≤ (m.length : Int) →
        (∀ j : Int, start ≤ j → j < start + p.sizeInKB → mget m j = some none) →
        p.id = "" → Allocate m (some (p, st)) start = .error .missingIdentity)
    ∧ (st.isAllocated = false → 0 ≤ start → start + p.sizeInKB ≤ (m.length : Int) →
        (∀ j : Int, start ≤ j → j < start + p.sizeInKB → mget m j = some none) →
        p.id ≠ "" →
        ∃ m2, Allocate m (some (p, st)) start = .ok (m2, ⟨true, start⟩) ∧
          m2.length = m.length ∧
          (∀ j : Int, start ≤ j → j < start + p.sizeInKB →
            mget m2 j = some (some p)) ∧
          (∀ j : Int, ¬(start ≤ j ∧ j < start + p.sizeInKB) →
            mget m2 j = mget m j)) := by
  refine ⟨rfl, ?_, ?_, ?_, ?_, ?_⟩
  · intro ha
    simp [Allocate, ha]
  · intro ha hb
    rw [← checkBounds_none_iff] at hb
    simp only [Allocate, ha, Bool.false_eq_true, if_false]
    rcases hcb : checkBounds m start p.sizeInKB with _ | e
    · exact absurd hcb hb
    · cases e
      · exact ⟨.boundsNeg, rfl, rfl⟩
      · exact ⟨.boundsOver, rfl, rfl⟩
  · intro ha h1 h2 hocc
    have hcb : checkBounds m start p.sizeInKB = none :=
      (checkBounds_none_iff _ _ _).mpr ⟨h1, h2⟩
    have he : isEmpty m start p.sizeInKB = false := by
      rw [← Bool.not_eq_true, isEmpty_true_iff _ _ _ hcb]
      exact hocc
    simp [Allocate, ha, hcb, he]
  · intro ha h1 h2 hfree hid
    have hcb : checkBounds m start p.sizeInKB = none :=
      (checkBounds_none_iff _ _ _).mpr ⟨h1, h2⟩
    have he : isEmpty m start p.sizeInKB = true :=
      (isEmpty_true_iff _ _ _ hcb).mpr hfree
    simp [Allocate, ha, hcb, he, hid]
  · intro ha h1 h2 hfree hid
    have hcb : checkBounds m start p.sizeInKB = none :=
      (checkBounds_none_iff _ _ _).mpr ⟨h1, h2⟩
    have he : isEmpty m start p.sizeInKB = true :=
      (isEmpty_true_iff _ _ _ hcb).mpr hfree
    refine ⟨writeRun m (some p) start p.sizeInKB.toNat, ?_, ?_, ?_, ?_⟩
    · simp [Allocate, ha, hcb, he, hid]
    · exact length_writeRun _ _ _ _
    · intro j hj1 hj2
      exact mget_writeRun_in _ _ _ _ _ h1 hj1 (by omega) (by omega)
    · intro j hj
      exact mget_writeRun_out _ _ _ _ _ (by omega)

/-- C4 witness: a concrete successful allocation obtained from
`allocate_spec`, with all hypotheses discharged. -/
theorem allocate_spec_witness :
    ∃ m2, Allocate ([none] : Memory) (some (⟨"1", "P", 1⟩, ⟨false, -1⟩)) 0 =
        .ok (m2, ⟨true, 0⟩) ∧
      m2.length = List.length ([none] : Memory) ∧
      (∀ j : Int, 0 ≤ j → j < 0 + (1 : Int) → mget m2 j = some (some ⟨"1", "P", 1⟩)) ∧
      (∀ j : Int, ¬(0 ≤ j ∧ j < 0 + (1 : Int)) → mget m2 j = mget ([none] : Memory) j) :=
  (allocate_spec ([none] : Memory) ⟨"1", "P", 1⟩ ⟨false, -1⟩ 0).2.2.2.2.2 rfl
    (by omega)
    (by change (0 : Int) + 1 ≤ 1; omega)
    (by
      intro j hj1 hj2
      change j < 0 + 1 at hj2
      have hj : j = 0 := by omega
      subst hj
      rfl)
    (by decide)

/-- C6 counterexample: an already-allocated process with a negative start
is rejected with `AlreadyAllocated`, not `OutOfBounds`, because `Allocate`
checks `IsAllocated` before bounds. -/
theorem allocate_bounds_counterexample :
    Allocate [none] (some (⟨"1", "P", 1⟩, ⟨true, 0⟩)) (-1) =
        .error .alreadyAllocated ∧
      AllocErr.alreadyAllocated.isOutOfBounds = false ∧ (-1 : Int) < 0 :=
  ⟨rfl, rfl, by decide⟩

/-- C6 amended: for a non-null, not-already-allocated process, `Allocate`
fails with an `OutOfBounds` error whenever `start < 0` or
`start + SizeInKB > N`. -/
theorem allocate_bounds_spec (m : Memory) (p : Proc) (st : PCB) (start : Int)
    (ha : st.isAllocated = false)
    (h : start < 0 ∨ start + p.sizeInKB > (m.length : Int)) :
    ∃ e, Allocate m (some (p, st)) start = .error e ∧ e.isOutOfBounds = true := by
  simp only [Allocate, ha, Bool.false_eq_true, if_false]
  rcases hcb : checkBounds m start p.sizeInKB with _ | e
  · rw [checkBounds_none_iff] at hcb
    omega
  · cases e
    · exact ⟨.boundsNeg, rfl, rfl⟩
    · exact ⟨.boundsOver, rfl, rfl⟩

/-- C6 witness: a concrete out-of-bounds allocation rejected through
`allocate_bounds_spec`. -/
theorem allocate_bounds_spec_witness :
    ∃ e, Allocate [none] (some (⟨"1", "P", 5⟩, ⟨false, -1⟩)) 0 = .error e ∧
      e.isOutOfBounds = true :=
  allocate_bounds_spec [none] ⟨"1", "P", 5⟩ ⟨false, -1⟩ 0 rfl (by right; decide)

/-- C5 counterexample: a process with empty ID whose recorded address is
the unallocated sentinel `-1` is rejected by `ReleaseProcess` with the
bounds error, not `MissingIdentity`, because the source checks bounds
before identity. -/
theorem release_emptyId_counterexample :
    ReleaseProcess [none] ⟨"", "X", 1⟩ ⟨false, -1⟩ =
        ⟨.errBounds .negStart, [none], ⟨false, -1⟩⟩ ∧
      ROutcome.errBounds BoundsErr.negStart ≠ ROutcome.errMissingIdentity :=
  ⟨rfl, by decide⟩

/-- C5 amended: for a process with empty ID, `ReleaseProcess` mutates
neither the address space nor the process's fields and fails: with
`MissingIdentity` when the recorded range passes the bounds check, with
the bounds error otherwise. -/
theorem release_emptyId_spec (m : Memory) (p : Proc) (st : PCB)
    (hid : p.id = "") :
    (ReleaseProcess m p st).mem = m ∧ (ReleaseProcess m p st).ps = st ∧
    (checkBounds m st.memoryAddress p.sizeInKB = none →
      (ReleaseProcess m p st).out = .errMissingIdentity) ∧
    (∀ e, checkBounds m st.memoryAddress p.sizeInKB = some e →
      (ReleaseProcess m p st).out = .errBounds e) := by
  unfold ReleaseProcess
  rcases hcb : checkBounds m st.memoryAddress p.sizeInKB with _ | e
  · simp [hid]
  · simp [hcb]

/-- C5 witness: a concrete empty-ID release with in-bounds recorded range,
rejected with `MissingIdentity` and mutating nothing, via
`release_emptyId_spec`. -/
theorem release_emptyId_spec_witness :
    (ReleaseProcess [none] ⟨"", "X", 1⟩ ⟨false, 0⟩).mem = [none] ∧
    (ReleaseProcess [none] ⟨"", "X", 1⟩ ⟨false, 0⟩).ps = ⟨false, 0⟩ ∧
    (ReleaseProcess [none] ⟨"", "X", 1⟩ ⟨false, 0⟩).out = .errMissingIdentity := by
  have h := release_emptyId_spec [none] ⟨"", "X", 1⟩ ⟨false, 0⟩ rfl
  exact ⟨h.1, h.2.1, h.2.2.1 (by decide)⟩

/-- C2: once the release scan is reached (recorded range in bounds,
non-empty ID), an ownership mismatch on the first cell of the range is
returned as `UnsafeRelease` with no mutation of the memory or the
process's fields, while a mismatch first encountered after at least one
cell has been cleared escalates to the `CorruptedMemoryState` panic. -/
theorem release_mismatch_spec (m : Memory) (p : Proc) (st : PCB)
    (hb : checkBounds m st.memoryAddress p.sizeInKB = none) (hid : p.id ≠ "") :
    (∀ q : Proc, mget m st.memoryAddress = some (some q) → q.id ≠ p.id →
      0 < p.sizeInKB → ReleaseProcess m p st = ⟨.errUnsafeRelease, m, st⟩) ∧
    (∀ (j : Nat) (q : Proc), 1 ≤ j → (j : Int) < p.sizeInKB →
      (∀ t : Nat, t < j →
        ∃ r, mget m (st.memoryAddress + t) = some (some r) ∧ r.id = p.id) →
      mget m (st.memoryAddress + j) = some (some q) → q.id ≠ p.id →
      (ReleaseProcess m p st).out = .panicCorrupted) := by
  constructor
  · intro q hq hne hpos
    obtain ⟨k, hk⟩ : ∃ k, p.sizeInKB.toNat = k + 1 := ⟨p.sizeInKB.toNat - 1, by omega⟩
    unfold ReleaseProcess
    rw [hb]
    simp only [if_neg hid, hk,
      releaseLoop_first_mismatch p.id k m st.memoryAddress q hq
        (fun h => hne (h ▸ rfl))]
  · intro j q hj1 hj2 hcells hq hne
    rw [ReleaseProcess_out m p st hb hid]
    exact releaseLoop_corrupted p.id j p.sizeInKB.toNat m st.memoryAddress false q
      (fun t ht => by
        obtain ⟨r, hr, hrid⟩ := hcells t ht
        exact ⟨r, hr, by simp [hrid]⟩)
      (Or.inl hj1) (by omega) hq (fun h => hne (by simpa using h))

/-- C2 witness: on the concrete memory `[P1, P2]` (both of size 1),
releasing a foreign-ID process claiming cell 0 yields `UnsafeRelease`
without mutation, and releasing a process whose recorded range covers
both cells panics with `CorruptedMemoryState` after clearing cell 0. -/
theorem release_mismatch_spec_witness :
    ReleaseProcess [some ⟨"1", "P1", 1⟩, some ⟨"2", "P2", 1⟩] ⟨"2", "X", 1⟩ ⟨true, 0⟩ =
      ⟨.errUnsafeRelease, [some ⟨"1", "P1", 1⟩, some ⟨"2", "P2", 1⟩], ⟨true, 0⟩⟩ ∧
    (ReleaseProcess [some ⟨"1", "P1", 1⟩, some ⟨"2", "P2", 1⟩] ⟨"1", "P1", 2⟩
      ⟨true, 0⟩).out = .panicCorrupted := by
  constructor
  · exact (release_mismatch_spec [some ⟨"1", "P1", 1⟩, some ⟨"2", "P2", 1⟩]
      ⟨"2", "X", 1⟩ ⟨true, 0⟩ (by decide) (by decide)).1 ⟨"1", "P1", 1⟩ rfl
      (by decide) (by decide)
  · exact (release_mismatch_spec [some ⟨"1", "P1", 1⟩, some ⟨"2", "P2", 1⟩]
      ⟨"1", "P1", 2⟩ ⟨true, 0⟩ (by decide) (by decide)).2 1 ⟨"2", "P2", 1⟩
      (by omega) (by decide)
      (by
        intro t ht
        have h : t = 0 := by omega
        subst h
        exact ⟨⟨"1", "P1", 1⟩, rfl, rfl⟩)
      rfl (by decide)

/-- C10 counterexample: a free cell inside the recorded range is reached
by the release scan, which reads the owner ID through a nil pointer — the
scan is not total on arbitrary in-bounds states. -/
theorem release_free_cell_counterexample :
    ReleaseProcess [none, none, none] ⟨"1", "P1", 3⟩ ⟨false, 0⟩ =
        ⟨.panicNilDeref, [none, none, none], ⟨false, 0⟩⟩ ∧
      mget [none, none, none] 0 = some none :=
  ⟨rfl, rfl⟩

/-- C10 amended: when every cell of the recorded range is occupied — in
particular in any consistent state where the process owns its recorded
range — the release scan never reads the owner ID of a free cell, so
`ReleaseProcess` never takes the nil-dereference path. -/
theorem release_no_nil_deref (m : Memory) (p : Proc) (st : PCB)
    (h : ∀ t : Nat, (t : Int) < p.sizeInKB →
      ∃ q, mget m (st.memoryAddress + t) = some (some q)) :
    (ReleaseProcess m p st).out ≠ .panicNilDeref := by
  unfold ReleaseProcess
  rcases hcb : checkBounds m st.memoryAddress p.sizeInKB with _ | e
  · by_cases hid : p.id = ""
    · simp [hid]
    · rw [if_neg hid]
      have hrl := releaseLoop_no_nilDeref p.id p.sizeInKB.toNat m st.memoryAddress
        false (fun t ht => h t (by omega))
      rcases hr : releaseLoop p.id m st.memoryAddress p.sizeInKB.toNat false
        with ⟨o, mm⟩
      rw [hr] at hrl
      cases o <;> simp_all
  · simp

/-- C10 witness: releasing a process whose recorded range is fully
occupied does not nil-dereference, via `release_no_nil_deref`. -/
theorem release_no_nil_deref_witness :
    (ReleaseProcess [some ⟨"1", "P1", 1⟩] ⟨"1", "P1", 1⟩ ⟨true, 0⟩).out ≠
      .panicNilDeref :=
  release_no_nil_deref [some ⟨"1", "P1", 1⟩] ⟨"1", "P1", 1⟩ ⟨true, 0⟩
    (by
      intro t ht
      change (t : Int) < 1 at ht
      have h : t = 0 := by omega
      subst h
      exact ⟨⟨"1", "P1", 1⟩, rfl⟩)

/-- C7: a process successfully placed by `Allocate` or `AllocateWorstFit`
and then released with no intervening mutation gives back exactly the
original memory (its cells are free again, all others unchanged), with
`IsAllocated` false, `MemoryAddress` −1, and `released = true`. -/
theorem allocate_release_roundtrip (m m1 : Memory) (p : Proc) (st st1 : PCB)
    (start : Int) (hpos : 0 < p.sizeInKB)
    (h : Allocate m (some (p, st)) start = .ok (m1, st1) ∨
         AllocateWorstFit m (some (p, st)) = .ok (m1, st1)) :
    ReleaseProcess m1 p st1 = ⟨.ok true, m, ⟨false, -1⟩⟩ := by
  have hex : ∃ s, Allocate m (some (p, st)) s = .ok (m1, st1) := by
    rcases h with h | h
    · exact ⟨start, h⟩
    · exact AllocateWorstFit_ok_inv m p st m1 st1 h
  obtain ⟨s, hs⟩ := hex
  obtain ⟨-, h1, h2, hfree, hid, hm1, hst1⟩ := Allocate_ok_inv m p st s m1 st1 hs
  subst hst1
  have hlen : m1.length = m.length := by rw [hm1]; exact length_writeRun _ _ _ _
  have hcells : ∀ t : Nat, t < p.sizeInKB.toNat →
      ∃ q, mget m1 (s + t) = some (some q) ∧ q.id = p.id := by
    intro t ht
    refine ⟨p, ?_, rfl⟩
    rw [hm1]
    exact mget_writeRun_in _ _ _ _ _ h1 (by omega) (by omega) (by omega)
  have hcb : checkBounds m1 s p.sizeInKB = none := by
    rw [checkBounds_none_iff, hlen]
    exact ⟨h1, h2⟩
  have hrl := releaseLoop_ok_of_all p.id p.sizeInKB.toNat m1 s false hcells
  have hmem : writeRun m1 none s p.sizeInKB.toNat = m := by
    apply mem_ext
    · rw [length_writeRun, hlen]
    · intro j hj0 hjlen
      by_cases hin : s ≤ j ∧ j < s + p.sizeInKB
      · rw [mget_writeRun_in _ _ _ _ _ h1 hin.1 (by omega)
          (by rw [hlen]; omega)]
        exact (hfree j hin.1 hin.2).symm
      · rw [mget_writeRun_out _ _ _ _ _ (by omega), hm1,
          mget_writeRun_out _ _ _ _ _ (by omega)]
  have hb : (false || decide (0 < p.sizeInKB.toNat)) = true := by
    simp
    omega
  rw [hmem, hb] at hrl
  exact ReleaseProcess_eq_of_ok m1 m p ⟨true, s⟩ true hcb hid hrl

/-- C7 witness: a concrete allocate-then-release round trip restoring the
empty memory, via `allocate_release_roundtrip`. -/
theorem allocate_release_roundtrip_witness :
    ReleaseProcess [some ⟨"1", "P", 1⟩] ⟨"1", "P", 1⟩ ⟨true, 0⟩ =
      ⟨.ok true, [none], ⟨false, -1⟩⟩ :=
  allocate_release_roundtrip [none] [some ⟨"1", "P", 1⟩] ⟨"1", "P", 1⟩
    ⟨false, -1⟩ ⟨true, 0⟩ 0 (by decide) (Or.inl rfl)

/-! ### The spec-side run-length encoding, compared with `Layout` -/

/-- Display name of a run: the owner's `Name` for an occupied run, the
reserved free marker for a free run. -/
def blockName : Option Proc → String
  | some q => q.name
  | none => FREE_BLOCK

/-- Written from the spec's words, for comparison with `Layout`: the
run-length encoding of the address space.  The current (still open) block
owns cells `[s, s+k)` all holding `c`; a new block begins exactly where
the next cell's ownership differs from `c`. -/
def specRLEgrow : Option Proc → Int → Int → Memory → List MemoryBlock
  | c, s, k, [] => [⟨s, k, blockName c⟩]
  | c, s, k, d :: rest =>
    if d = c then specRLEgrow c s (k + 1) rest
    else ⟨s, k, blockName c⟩ :: specRLEgrow d (s + k) 1 rest

/-- Written from the spec's words: left-to-right run-length encoding of a
memory, first block starting at index `s`. -/
def specRLE : Int → Memory → List MemoryBlock
  | _, [] => []
  | s, c :: rest => specRLEgrow c s 1 rest

theorem layoutLoop_cons (c : Option Proc) (rest : Memory) (i : Int)
    (prev : Option (Option Proc)) (pe : Bool) (acc : List MemoryBlock) :
    layoutLoop (c :: rest) i prev pe acc =
      if c = none ∧ pe = false then
        layoutLoop rest (i + 1) (some c) true
          (bumpHead ({ start := i, size := 0, name := FREE_BLOCK } :: acc))
      else if (c ≠ none ∧ i = 0) ∨ prev ≠ some c then
        layoutLoop rest (i + 1) (some c) false
          (bumpHead ({ start := i, size := 0,
                       name := match c with
                               | some q => q.name
                               | none => FREE_BLOCK } :: acc))
      else layoutLoop rest (i + 1) (some c) pe (bumpHead acc) := rfl

theorem layoutLoop_grow :
    ∀ (l : Memory) (j s k : Int) (c : Option Proc) (acc : List MemoryBlock),
      1 ≤ j → s + k = j →
      layoutLoop l j (some c) c.isNone (⟨s, k, blockName c⟩ :: acc) =
        acc.reverse ++ specRLEgrow c s k l := by
  intro l
  induction l with
  | nil =>
    intro j s k c acc _ _
    rw [show layoutLoop [] j (some c) c.isNone (⟨s, k, blockName c⟩ :: acc) =
      (⟨s, k, blockName c⟩ :: acc).reverse from rfl]
    rw [show specRLEgrow c s k [] = [⟨s, k, blockName c⟩] from rfl]
    rw [List.reverse_cons]
  | cons d rest ih =>
    intro j s k c acc hj hsk
    by_cases hdc : d = c
    · subst hdc
      rw [layoutLoop_cons, if_neg (by rintro ⟨rfl, h2⟩; simp at h2),
        if_neg (by rintro (⟨-, h⟩ | h); omega; exact h rfl)]
      rw [show bumpHead (⟨s, k, blockName d⟩ :: acc) =
        ⟨s, k + 1, blockName d⟩ :: acc from rfl]
      rw [ih (j + 1) s (k + 1) d acc (by omega) (by omega)]
      rw [specRLEgrow, if_pos rfl]
    · rcases hd : d with _ | q
      · subst hd
        have hc : ∃ q, c = some q := by
          rcases c with _ | q
          · exact absurd rfl hdc
          · exact ⟨q, rfl⟩
        obtain ⟨q, rfl⟩ := hc
        rw [layoutLoop_cons, if_pos ⟨rfl, rfl⟩]
        rw [show bumpHead (⟨j, 0, FREE_BLOCK⟩ :: ⟨s, k, blockName (some q)⟩ :: acc) =
          ⟨j, 1, FREE_BLOCK⟩ :: ⟨s, k, blockName (some q)⟩ :: acc from rfl]
        rw [show (⟨j, 1, FREE_BLOCK⟩ : MemoryBlock) = ⟨j, 1, blockName none⟩ from rfl]
        rw [show (true : Bool) = (none : Option Proc).isNone from rfl]
        rw [ih (j + 1) j 1 none (⟨s, k, blockName (some q)⟩ :: acc) (by omega)
          (by omega)]
        rw [specRLEgrow, if_neg hdc, List.reverse_cons, hsk]
        simp
      · subst hd
        rw [layoutLoop_cons, if_neg (by rintro ⟨h, -⟩; simp at h),
          if_pos (Or.inr (by simpa using fun h => hdc h.symm))]
        rw [show bumpHead (⟨j, 0, q.name⟩ :: ⟨s, k, blockName c⟩ :: acc) =
          ⟨j, 1, q.name⟩ :: ⟨s, k, blockName c⟩ :: acc from rfl]
        rw [show (⟨j, 1, q.name⟩ : MemoryBlock) = ⟨j, 1, blockName (some q)⟩ from rfl]
        rw [show (false : Bool) = (some q : Option Proc).isNone from rfl]
        rw [ih (j + 1) j 1 (some q) (⟨s, k, blockName c⟩ :: acc) (by omega) (by omega)]
        rw [specRLEgrow, if_neg hdc, List.reverse_cons, hsk]
        simp

/-- C9: `Layout` is exactly the left-to-right run-length encoding of the
address space: a new block begins at index 0 and wherever ownership
changes; each block is a maximal run with its `Start` and `Size`; free
blocks carry the reserved free marker and owned blocks the owner's name;
in particular for N = 10 with P1 (size 3) at 0 the layout is
`[{0,3,"P1"}, {3,7,FREE}]`. -/
theorem layout_rle_spec :
    (∀ m : Memory, Layout m = specRLE 0 m) ∧
    Layout ([some ⟨"1", "P1", 3⟩, some ⟨"1", "P1", 3⟩, some ⟨"1", "P1", 3⟩,
        none, none, none, none, none, none, none] : Memory) =
      [⟨0, 3, "P1"⟩, ⟨3, 7, FREE_BLOCK⟩] := by
  constructor
  · intro m
    rcases m with _ | ⟨c, rest⟩
    · rfl
    rcases c with _ | q
    · rw [Layout, layoutLoop_cons, if_pos ⟨rfl, rfl⟩]
      rw [show bumpHead (⟨0, 0, FREE_BLOCK⟩ :: ([] : List MemoryBlock)) =
        [(⟨0, 1, blockName none⟩ : MemoryBlock)] from rfl]
      rw [show (true : Bool) = (none : Option Proc).isNone from rfl]
      rw [layoutLoop_grow rest (0 + 1) 0 1 none [] (by omega) (by omega)]
      rfl
    · rw [Layout, layoutLoop_cons, if_neg (by rintro ⟨h, -⟩; simp at h),
        if_pos (Or.inl ⟨by simp, rfl⟩)]
      rw [show bumpHead (⟨0, 0, q.name⟩ :: ([] : List MemoryBlock)) =
        [(⟨0, 1, blockName (some q)⟩ : MemoryBlock)] from rfl]
      rw [show (false : Bool) = (some q : Option Proc).isNone from rfl]
      rw [layoutLoop_grow rest (0 + 1) 0 1 (some q) [] (by omega) (by omega)]
      rfl
  · rfl

/-! ### The spec-side view of the worst-fit search -/

/-- Written from the spec's words: the maximal free runs of the memory,
left to right, as `(start, length)` pairs.  `cur = some (cs, csz)` means
a free run starting at `cs` with `csz` cells seen so far is still open. -/
def segsScan : Option (Int × Int) → Int → Memory → List (Int × Int)
  | cur, _, [] =>
    match cur with
    | some sg => [sg]
    | none => []
  | some (cs, csz), i, none :: rest => segsScan (some (cs, csz + 1)) (i + 1) rest
  | some sg, i, some _ :: rest => sg :: segsScan none (i + 1) rest
  | none, i, none :: rest => segsScan (some (i, 1)) (i + 1) rest
  | none, i, some _ :: rest => segsScan none (i + 1) rest

/-- The maximal free runs of `m` in left-to-right order. -/
def freeSegs (m : Memory) : List (Int × Int) :=
  segsScan none 0 m

/-- First-strictly-greater selection: the fold the Go scan performs on
the run list, keeping the first run of maximum length. -/
def pickBest : List (Int × Int) → Int × Int → Int × Int
  | [], b => b
  | sg :: rest, b => pickBest rest (if sg.2 > b.2 then sg else b)

/-- Number of leading free cells. -/
def leadFree : Memory → Nat
  | [] => 0
  | none :: rest => leadFree rest + 1
  | some _ :: _ => 0

/-- Written from the claim's words: `[s, s+ln)` is a contiguous range of
free cells of `m`. -/
def FreeSegment (m : Memory) (s ln : Int) : Prop :=
  0 ≤ s ∧ 1 ≤ ln ∧ s + ln ≤ (m.length : Int) ∧
    ∀ j : Int, s ≤ j → j < s + ln → mget m j = some none

/-- Written from the claim's words: `[s, s+ln)` is a maximal contiguous
free run of `m` (bounded by the memory's ends or by occupied cells). -/
def MaximalFreeRun (m : Memory) (s ln : Int) : Prop :=
  FreeSegment m s ln ∧
    (s = 0 ∨ ∃ q, mget m (s - 1) = some (some q)) ∧
    (s + ln = (m.length : Int) ∨ ∃ q, mget m (s + ln) = some (some q))

/-- The Go worst-fit scan computes exactly the first-maximum fold over
the maximal free runs. -/
theorem wfLoop_eq :
    ∀ (m : Memory) (i bs bl cs csz : Int),
      (wfLoop m i bs bl cs csz true =
        pickBest (segsScan (some (cs, csz)) i m) (bs, bl)) ∧
      (csz ≤ bl → wfLoop m i bs bl cs csz false =
        pickBest (segsScan none i m) (bs, bl)) := by
  intro m
  induction m with
  | nil =>
    intro i bs bl cs csz
    constructor
    · rfl
    · intro hle
      rw [show pickBest (segsScan none i ([] : Memory)) (bs, bl) = (bs, bl) from rfl]
      rw [show wfLoop [] i bs bl cs csz false =
        (if csz > bl then (cs, csz) else (bs, bl)) from rfl]
      exact if_neg (by omega)
  | cons c rest ih =>
    intro i bs bl cs csz
    rcases c with _ | q
    · constructor
      · rw [wfLoop, if_pos rfl, segsScan]
        exact (ih (i + 1) bs bl cs (csz + 1)).1
      · intro hle
        rw [wfLoop, if_neg (by simp), segsScan]
        exact (ih (i + 1) bs bl i 1).1
    · constructor
      · rw [wfLoop, if_pos rfl, segsScan, pickBest]
        by_cases h : csz > bl
        · rw [if_pos h, if_pos (show (cs, csz).2 > (bs, bl).2 from h)]
          exact (ih (i + 1) cs csz cs csz).2 le_rfl
        · rw [if_neg h, if_neg (show ¬(cs, csz).2 > (bs, bl).2 from h)]
          exact (ih (i + 1) bs bl cs csz).2 (by omega)
      · intro hle
        rw [wfLoop, if_neg (by simp), segsScan]
        exact (ih (i + 1) bs bl cs csz).2 hle

/-- `WorstFit` in terms of the run list. -/
theorem WorstFit_eq (m : Memory) (size : Int) :
    WorstFit m size =
      ((pickBest (freeSegs m) (-1, 0)).1, (pickBest (freeSegs m) (-1, 0)).2,
        decide (size > (pickBest (freeSegs m) (-1, 0)).2)) := by
  unfold WorstFit freeSegs
  rw [(wfLoop_eq m 0 (-1) 0 (-1) 0).2 le_rfl]

/-- Continuing an open run just extends its length by the leading free
cells and then scans the remainder. -/
theorem segsScan_some_eq :
    ∀ (l : Memory) (cs csz i : Int),
      segsScan (some (cs, csz)) i l =
        (cs, csz + (leadFree l : Int)) ::
          segsScan none (i + (leadFree l : Int)) (l.drop (leadFree l)) := by
  intro l
  induction l with
  | nil =>
    intro cs csz i
    rw [segsScan, leadFree]
    simp [segsScan]
  | cons c rest ih =>
    intro cs csz i
    rcases c with _ | q
    · rw [show segsScan (some (cs, csz)) i (none :: rest) =
        segsScan (some (cs, csz + 1)) (i + 1) rest from rfl, ih]
      rw [show leadFree (none :: rest) = leadFree rest + 1 from rfl]
      have h1 : csz + 1 + (leadFree rest : Int) =
          csz + ((leadFree rest + 1 : Nat) : Int) := by push_cast; ring
      have h2 : i + 1 + (leadFree rest : Int) =
          i + ((leadFree rest + 1 : Nat) : Int) := by push_cast; ring
      rw [h1, h2]
      rfl
    · rw [show segsScan (some (cs, csz)) i (some q :: rest) =
        (cs, csz) :: segsScan none (i + 1) rest from rfl]
      rw [show leadFree (some q :: rest) = 0 from rfl]
      simp only [Nat.cast_zero, add_zero, List.drop_zero]
      rw [show segsScan none i (some q :: rest) = segsScan none (i + 1) rest from rfl]

theorem leadFree_le_length : ∀ l : Memory, leadFree l ≤ l.length := by
  intro l
  induction l with
  | nil => simp [leadFree]
  | cons c rest ih =>
    rcases c with _ | q
    · rw [show leadFree (none :: rest) = leadFree rest + 1 from rfl]
      simp only [List.length_cons]
      omega
    · rw [show leadFree (some q :: rest) = 0 from rfl]
      omega

theorem leadFree_free : ∀ (l : Memory) (j : Nat), j < leadFree l → l[j]? = some none := by
  intro l
  induction l with
  | nil => intro j h; rw [leadFree] at h; omega
  | cons c rest ih =>
    intro j h
    rcases c with _ | q
    · match j with
      | 0 => exact List.getElem?_cons_zero
      | j + 1 =>
        rw [List.getElem?_cons_succ]
        rw [show leadFree (none :: rest) = leadFree rest + 1 from rfl] at h
        exact ih j (by omega)
    · rw [show leadFree (some q :: rest) = 0 from rfl] at h; omega

theorem leadFree_boundary : ∀ l : Memory,
    leadFree l = l.length ∨ ∃ q, l[leadFree l]? = some (some q) := by
  intro l
  induction l with
  | nil => left; rfl
  | cons c rest ih =>
    rcases c with _ | q
    · rw [show leadFree (none :: rest) = leadFree rest + 1 from rfl]
      rcases ih with h | ⟨q, hq⟩
      · left; simp [h]
      · right
        refine ⟨q, ?_⟩
        rw [List.getElem?_cons_succ]
        exact hq
    · right
      refine ⟨q, ?_⟩
      rw [show leadFree (some q :: rest) = 0 from rfl]
      exact List.getElem?_cons_zero

/-! ### Properties of the first-maximum fold -/

theorem pickBest_ge_init : ∀ (segs : List (Int × Int)) (b : Int × Int),
    b.2 ≤ (pickBest segs b).2 := by
  intro segs
  induction segs with
  | nil => intro b; exact le_rfl
  | cons sg rest ih =>
    intro b
    rw [pickBest]
    by_cases h : sg.2 > b.2
    · rw [if_pos h]
      exact le_trans (le_of_lt h) (ih sg)
    · rw [if_neg h]
      exact ih b

theorem pickBest_ge_mem : ∀ (segs : List (Int × Int)) (b x : Int × Int),
    x ∈ segs → x.2 ≤ (pickBest segs b).2 := by
  intro segs
  induction segs with
  | nil => intro b x hx; simp at hx
  | cons sg rest ih =>
    intro b x hx
    rw [pickBest]
    rcases List.mem_cons.mp hx with rfl | hx
    · by_cases h : x.2 > b.2
      · rw [if_pos h]
        exact pickBest_ge_init rest x
      · rw [if_neg h]
        exact le_trans (by omega) (pickBest_ge_init rest b)
    · exact ih _ x hx

theorem pickBest_first : ∀ (segs : List (Int × Int)) (b : Int × Int),
    pickBest segs b = b ∨
    ∃ u r v, segs = u ++ r :: v ∧ pickBest segs b = r ∧ b.2 < r.2 ∧
      ∀ x ∈ u, x.2 < r.2 := by
  intro segs
  induction segs with
  | nil => intro b; left; rfl
  | cons sg rest ih =>
    intro b
    rw [pickBest]
    by_cases h : sg.2 > b.2
    · rw [if_pos h]
      rcases ih sg with heq | ⟨u, r, v, hdec, heq, hlt, hu⟩
      · right
        exact ⟨[], sg, rest, rfl, heq, h, by simp⟩
      · right
        refine ⟨sg :: u, r, v, by rw [hdec]; rfl, heq, by omega, ?_⟩
        intro x hx
        rcases List.mem_cons.mp hx with rfl | hx
        · omega
        · exact hu x hx
    · rw [if_neg h]
      rcases ih b with heq | ⟨u, r, v, hdec, heq, hlt, hu⟩
      · left; exact heq
      · right
        refine ⟨sg :: u, r, v, by rw [hdec]; rfl, heq, hlt, ?_⟩
        intro x hx
        rcases List.mem_cons.mp hx with rfl | hx
        · omega
        · exact hu x hx

/-- What it means for `(s, ln)` to be a maximal free run of `l`, with
positions written relative to the base index `i`. -/
def SegRel (l : Memory) (i s ln : Int) : Prop :=
  ∃ t k : Nat, s = i + (t : Int) ∧ ln = (k : Int) ∧ 1 ≤ k ∧ t + k ≤ l.length ∧
    (∀ j : Nat, t ≤ j → j < t + k → l[j]? = some none) ∧
    (t = 0 ∨ ∃ q, l[t - 1]? = some (some q)) ∧
    (t + k = l.length ∨ ∃ q, l[t + k]? = some (some q))

theorem segsScan_none_mem :
    ∀ (fuel : Nat) (l : Memory), l.length ≤ fuel → ∀ (i s ln : Int),
      (s, ln) ∈ segsScan none i l → SegRel l i s ln := by
  intro fuel
  induction fuel with
  | zero =>
    intro l hl i s ln hm
    have hnil : l = [] := List.length_eq_zero.mp (by omega)
    subst hnil
    rw [show segsScan none i ([] : Memory) = [] from rfl] at hm
    simp at hm
  | succ n ih =>
    intro l hl i s ln hm
    rcases l with _ | ⟨c, rest⟩
    · rw [show segsScan none i ([] : Memory) = [] from rfl] at hm
      simp at hm
    rcases c with _ | q
    · rw [show segsScan none i (none :: rest) =
        segsScan (some (i, 1)) (i + 1) rest from rfl, segsScan_some_eq] at hm
      rcases List.mem_cons.mp hm with heq | htail
      · have hs : s = i ∧ ln = 1 + (leadFree rest : Int) := by
          constructor
          · exact congrArg Prod.fst heq
          · exact congrArg Prod.snd heq
        refine ⟨0, leadFree rest + 1, by omega, by push_cast; omega, by omega, ?_, ?_, ?_, ?_⟩
        · have := leadFree_le_length rest
          simp only [List.length_cons]
          omega
        · intro j _ hj
          match j with
          | 0 => exact List.getElem?_cons_zero
          | j + 1 =>
            rw [List.getElem?_cons_succ]
            exact leadFree_free rest j (by omega)
        · left; rfl
        · rcases leadFree_boundary rest with hb | ⟨q, hq⟩
          · left; simp [hb]
          · right
            refine ⟨q, ?_⟩
            rw [show 0 + (leadFree rest + 1) = leadFree rest + 1 from by omega,
              List.getElem?_cons_succ]
            exact hq
      · have hlf := leadFree_le_length rest
        have hrel := ih (rest.drop (leadFree rest))
          (by
            simp only [List.length_drop]
            simp only [List.length_cons] at hl
            omega)
          (i + 1 + (leadFree rest : Int)) s ln
          (by
            rw [show i + 1 + (leadFree rest : Int) =
              i + 1 + (leadFree rest : Int) from rfl]
            exact htail)
        obtain ⟨t, k, hs, hln, hk, hlen, hcells, hleft, hright⟩ := hrel
        rw [List.length_drop] at hlen
        have ht1 : 1 ≤ t := by
          by_contra ht0
          have ht : t = 0 := by omega
          subst ht
          have hfree0 := hcells 0 (by omega) (by omega)
          rw [List.getElem?_drop] at hfree0
          rcases leadFree_boundary rest with hb | ⟨q, hq⟩
          · omega
          · rw [show leadFree rest + 0 = leadFree rest from by omega] at hfree0
            rw [hq] at hfree0
            simp at hfree0
        refine ⟨leadFree rest + 1 + t, k, by push_cast at hs ⊢; omega, hln, hk,
          by simp only [List.length_cons]; omega, ?_, ?_, ?_⟩
        · intro j hj1 hj2
          obtain ⟨j2, rfl⟩ : ∃ j2, j = j2 + 1 := ⟨j - 1, by omega⟩
          rw [List.getElem?_cons_succ,
            show j2 = leadFree rest + (j2 - leadFree rest) from by omega,
            ← List.getElem?_drop]
          exact hcells (j2 - leadFree rest) (by omega) (by omega)
        · right
          rcases hleft with ht0 | ⟨q, hq⟩
          · omega
          · refine ⟨q, ?_⟩
            rw [show leadFree rest + 1 + t - 1 = (leadFree rest + (t - 1)) + 1 from
              by omega, List.getElem?_cons_succ, ← List.getElem?_drop]
            exact hq
        · rcases hright with hb | ⟨q, hq⟩
          · left
            simp only [List.length_drop] at hb
            simp only [List.length_cons]
            omega
          · right
            refine ⟨q, ?_⟩
            rw [show leadFree rest + 1 + t + k = (leadFree rest + (t + k)) + 1 from
              by omega, List.getElem?_cons_succ, ← List.getElem?_drop]
            exact hq
    · rw [show segsScan none i (some q :: rest) =
        segsScan none (i + 1) rest from rfl] at hm
      obtain ⟨t, k, hs, hln, hk, hlen, hcells, hleft, hright⟩ :=
        ih rest (by simp only [List.length_cons] at hl; omega) (i + 1) s ln hm
      refine ⟨t + 1, k, by push_cast at hs ⊢; omega, hln, hk,
        by simp only [List.length_cons]; omega, ?_, ?_, ?_⟩
      · intro j hj1 hj2
        obtain ⟨j2, rfl⟩ : ∃ j2, j = j2 + 1 := ⟨j - 1, by omega⟩
        rw [List.getElem?_cons_succ]
        exact hcells j2 (by omega) (by omega)
      · right
        by_cases ht0 : t = 0
        · subst ht0
          exact ⟨q, List.getElem?_cons_zero⟩
        · rcases hleft with ht | ⟨r, hr⟩
          · omega
          · refine ⟨r, ?_⟩
            rw [show t + 1 - 1 = (t - 1) + 1 from by omega, List.getElem?_cons_succ]
            exact hr
      · rcases hright with hb | ⟨r, hr⟩
        · left
          simp only [List.length_cons]
          omega
        · right
          refine ⟨r, ?_⟩
          rw [show t + 1 + k = (t + k) + 1 from by omega, List.getElem?_cons_succ]
          exact hr

theorem segsScan_none_cover :
    ∀ (fuel : Nat) (l : Memory), l.length ≤ fuel → ∀ (i : Int) (t k : Nat),
      1 ≤ k → t + k ≤ l.length →
      (∀ j : Nat, t ≤ j → j < t + k → l[j]? = some none) →
      ∃ sl ∈ segsScan none i l,
        sl.1 ≤ i + (t : Int) ∧ i + (t : Int) + (k : Int) ≤ sl.1 + sl.2 := by
  intro fuel
  induction fuel with
  | zero =>
    intro l hl i t k hk hlen _
    have hnil : l = [] := List.length_eq_zero.mp (by omega)
    subst hnil
    simp at hlen
    omega
  | succ n ih =>
    intro l hl i t k hk hlen hcells
    rcases l with _ | ⟨c, rest⟩
    · simp at hlen; omega
    rcases c with _ | q
    · rw [show segsScan none i (none :: rest) =
        segsScan (some (i, 1)) (i + 1) rest from rfl, segsScan_some_eq]
      have hlf := leadFree_le_length rest
      by_cases hcase : t + k ≤ leadFree rest + 1
      · refine ⟨(i, 1 + (leadFree rest : Int)), List.mem_cons_self _ _, ?_, ?_⟩
        · show i ≤ i + (t : Int)
          omega
        · show i + (t : Int) + (k : Int) ≤ i + (1 + (leadFree rest : Int))
          omega
      · have hocc : ∃ r, rest[leadFree rest]? = some (some r) := by
          rcases leadFree_boundary rest with hb | h
          · exfalso
            simp only [List.length_cons] at hlen
            omega
          · exact h
        obtain ⟨r, hr⟩ := hocc
        have ht : leadFree rest + 2 ≤ t := by
          by_contra hlt
          have h1 : t ≤ leadFree rest + 1 := by omega
          have h2 : leadFree rest + 1 < t + k := by omega
          have := hcells (leadFree rest + 1) h1 h2
          rw [List.getElem?_cons_succ, hr] at this
          simp at this
        obtain ⟨sl, hmem, hc1, hc2⟩ := ih (rest.drop (leadFree rest))
          (by
            simp only [List.length_drop]
            simp only [List.length_cons] at hl
            omega)
          (i + 1 + (leadFree rest : Int)) (t - 1 - leadFree rest) k hk
          (by simp only [List.length_drop, List.length_cons] at hlen ⊢; omega)
          (by
            intro j hj1 hj2
            rw [List.getElem?_drop]
            have := hcells (leadFree rest + j + 1) (by omega) (by omega)
            rwa [List.getElem?_cons_succ] at this)
        refine ⟨sl, List.mem_cons_of_mem _ hmem, ?_, ?_⟩
        · omega
        · omega
    · have ht : 1 ≤ t := by
        by_contra ht0
        have := hcells 0 (by omega) (by omega)
        rw [List.getElem?_cons_zero] at this
        simp at this
      rw [show segsScan none i (some q :: rest) =
        segsScan none (i + 1) rest from rfl]
      obtain ⟨sl, hmem, hc1, hc2⟩ := ih rest
        (by simp only [List.length_cons] at hl; omega) (i + 1) (t - 1) k hk
        (by simp only [List.length_cons] at hlen; omega)
        (by
          intro j hj1 hj2
          have := hcells (j + 1) (by omega) (by omega)
          rwa [List.getElem?_cons_succ] at this)
      refine ⟨sl, hmem, ?_, ?_⟩
      · omega
      · omega

theorem segsScan_none_ge (l : Memory) (i s ln : Int)
    (hm : (s, ln) ∈ segsScan none i l) : i ≤ s := by
  obtain ⟨t, _, hs, _⟩ := segsScan_none_mem l.length l le_rfl i s ln hm
  omega

theorem segsScan_none_sorted :
    ∀ (fuel : Nat) (l : Memory), l.length ≤ fuel → ∀ i : Int,
      (segsScan none i l).Pairwise (fun a b => a.1 < b.1) := by
  intro fuel
  induction fuel with
  | zero =>
    intro l hl i
    have hnil : l = [] := List.length_eq_zero.mp (by omega)
    subst hnil
    rw [show segsScan none i ([] : Memory) = [] from rfl]
    exact List.Pairwise.nil
  | succ n ih =>
    intro l hl i
    rcases l with _ | ⟨c, rest⟩
    · rw [show segsScan none i ([] : Memory) = [] from rfl]
      exact List.Pairwise.nil
    rcases c with _ | q
    · rw [show segsScan none i (none :: rest) =
        segsScan (some (i, 1)) (i + 1) rest from rfl, segsScan_some_eq]
      have hlf := leadFree_le_length rest
      refine List.Pairwise.cons ?_ ?_
      · intro sl hsl
        rcases sl with ⟨s, ln⟩
        have := segsScan_none_ge _ _ _ _ hsl
        simp only
        omega
      · exact ih (rest.drop (leadFree rest))
          (by simp only [List.length_drop, List.length_cons] at hl ⊢; omega) _
    · rw [show segsScan none i (some q :: rest) =
        segsScan none (i + 1) rest from rfl]
      exact ih rest (by simp only [List.length_cons] at hl; omega) (i + 1)

/-! ### Assembly of the worst-fit correctness theorem -/

theorem SegRel_maximal (m : Memory) (s ln : Int) (h : SegRel m 0 s ln) :
    MaximalFreeRun m s ln := by
  obtain ⟨t, k, hs, hln, hk, hlen, hcells, hleft, hright⟩ := h
  have hs0 : s = (t : Int) := by omega
  refine ⟨⟨by omega, by omega, by omega, ?_⟩, ?_, ?_⟩
  · intro j hj1 hj2
    have hj0 : 0 ≤ j := by omega
    have := hcells j.toNat (by omega) (by omega)
    rw [mget, if_pos hj0]
    rwa [show j.toNat = j.toNat from rfl]
  · by_cases ht0 : t = 0
    · left; omega
    · right
      rcases hleft with ht | ⟨q, hq⟩
      · omega
      · refine ⟨q, ?_⟩
        rw [mget, if_pos (by omega), show (s - 1).toNat = t - 1 from by omega]
        exact hq
  · rcases hright with hb | ⟨q, hq⟩
    · left; omega
    · right
      refine ⟨q, ?_⟩
      rw [mget, if_pos (by omega), show (s + ln).toNat = t + k from by omega]
      exact hq

theorem maximal_run_eq (m : Memory) (s1 l1 s2 l2 : Int)
    (h1 : MaximalFreeRun m s1 l1) (h2 : MaximalFreeRun m s2 l2)
    (hover : ∃ j : Int, s1 ≤ j ∧ j < s1 + l1 ∧ s2 ≤ j ∧ j < s2 + l2) :
    s1 = s2 ∧ l1 = l2 := by
  obtain ⟨⟨hp1, hk1, hb1, hc1⟩, hl1, hr1⟩ := h1
  obtain ⟨⟨hp2, hk2, hb2, hc2⟩, hl2, hr2⟩ := h2
  obtain ⟨j, hj1, hj2, hj3, hj4⟩ := hover
  have hstart : s1 = s2 := by
    by_contra hne
    rcases lt_or_gt_of_ne hne with hlt | hgt
    · have hfree := hc1 (s2 - 1) (by omega) (by omega)
      rcases hl2 with h0 | ⟨q, hq⟩
      · omega
      · rw [hq] at hfree; simp at hfree
    · have hfree := hc2 (s1 - 1) (by omega) (by omega)
      rcases hl1 with h0 | ⟨q, hq⟩
      · omega
      · rw [hq] at hfree; simp at hfree
  subst hstart
  refine ⟨rfl, ?_⟩
  by_contra hne
  rcases lt_or_gt_of_ne hne with hlt | hgt
  · have hfree := hc2 (s1 + l1) (by omega) (by omega)
    rcases hr1 with h0 | ⟨q, hq⟩
    · omega
    · rw [hq] at hfree; simp at hfree
  · have hfree := hc1 (s1 + l2) (by omega) (by omega)
    rcases hr2 with h0 | ⟨q, hq⟩
    · omega
    · rw [hq] at hfree; simp at hfree

theorem FreeSegment_covered (m : Memory) (s ln : Int) (h : FreeSegment m s ln) :
    ∃ sl ∈ freeSegs m, sl.1 ≤ s ∧ s + ln ≤ sl.1 + sl.2 := by
  obtain ⟨hp, hk, hb, hc⟩ := h
  obtain ⟨sl, hmem, hc1, hc2⟩ := segsScan_none_cover m.length m le_rfl 0
    s.toNat ln.toNat (by omega) (by omega)
    (by
      intro j hj1 hj2
      have := hc j (by omega) (by omega)
      rwa [mget, if_pos (by omega), Int.toNat_natCast] at this)
  exact ⟨sl, hmem, by omega, by omega⟩

theorem MaximalFreeRun_mem (m : Memory) (s ln : Int) (h : MaximalFreeRun m s ln) :
    (s, ln) ∈ freeSegs m := by
  obtain ⟨sl, hmem, hc1, hc2⟩ := FreeSegment_covered m s ln h.1
  have hmax : MaximalFreeRun m sl.1 sl.2 :=
    SegRel_maximal m sl.1 sl.2
      (segsScan_none_mem m.length m le_rfl 0 sl.1 sl.2 hmem)
  have hfs : 1 ≤ ln := h.1.2.1
  have heq := maximal_run_eq m s ln sl.1 sl.2 h hmax ⟨s, by omega, by omega, by omega, by omega⟩
  rw [show (s, ln) = sl from Prod.ext heq.1 heq.2]
  exact hmem

/-- C1 counterexample: on a fully occupied memory there is no free run at
all, yet `WorstFit(1)` still returns start `-1` and size `0` — so the
returned start is not the start of any contiguous free run, contradicting
the claim's unconditional form. -/
theorem worstFit_claim_counterexample :
    WorstFit [some ⟨"1", "P1", 1⟩] 1 = (-1, 0, true) ∧
      ¬∃ ln, FreeSegment [some ⟨"1", "P1", 1⟩] (-1) ln :=
  ⟨rfl, fun ⟨_, hseg⟩ => absurd hseg.1 (by decide)⟩

/-- C1 amended: whenever at least one cell is free, `WorstFit(size)` (for
positive `size`) returns the start and length of a maximal free run whose
length is ≥ the length of every free segment, earliest-first among
maximal runs of that length, and it fails with `InsufficientSpace`
exactly when that largest run's length is smaller than `size`, the
returned start and size describing the largest run even on failure.
(When no cell is free it returns start `-1` and size `0`.) -/
theorem worstFit_spec (m : Memory) (size : Int) (_hpos : 0 < size)
    (hfree : ∃ j : Int, mget m j = some none) :
    MaximalFreeRun m (WorstFit m size).1 (WorstFit m size).2.1 ∧
    (∀ s ln : Int, FreeSegment m s ln → ln ≤ (WorstFit m size).2.1) ∧
    (∀ s ln : Int, MaximalFreeRun m s ln → ln = (WorstFit m size).2.1 →
      (WorstFit m size).1 ≤ s) ∧
    ((WorstFit m size).2.2 = true ↔ (WorstFit m size).2.1 < size) := by
  rw [WorstFit_eq]
  obtain ⟨j, hj⟩ := hfree
  have hj0 : 0 ≤ j ∧ j < (m.length : Int) := mget_lt_length m j none hj
  have hcov : ∃ sl ∈ freeSegs m, sl.1 ≤ j ∧ j + 1 ≤ sl.1 + sl.2 :=
    FreeSegment_covered m j 1 ⟨by omega, le_rfl, by omega,
      fun j2 h1 h2 => by rwa [show j2 = j from by omega]⟩
  obtain ⟨sl0, hmem0, hcov1, hcov2⟩ := hcov
  have hdec : ∃ u r v, freeSegs m = u ++ r :: v ∧
      pickBest (freeSegs m) (-1, 0) = r ∧ (0 : Int) < r.2 ∧
      ∀ x ∈ u, x.2 < r.2 := by
    rcases pickBest_first (freeSegs m) (-1, 0) with heq | h
    · exfalso
      have := pickBest_ge_mem (freeSegs m) (-1, 0) sl0 hmem0
      rw [heq] at this
      simp only at this
      omega
    · exact h
  obtain ⟨u, r, v, hsplit, heq, hrpos, hu⟩ := hdec
  have hrmem : r ∈ freeSegs m := by
    rw [hsplit]
    exact List.mem_append_right u (List.mem_cons_self _ _)
  have hrmax : MaximalFreeRun m r.1 r.2 :=
    SegRel_maximal m r.1 r.2
      (segsScan_none_mem m.length m le_rfl 0 r.1 r.2 hrmem)
  rw [heq]
  dsimp only
  refine ⟨hrmax, ?_, ?_, by simp⟩
  · intro s ln hseg
    obtain ⟨sl, hmem, hc1, hc2⟩ := FreeSegment_covered m s ln hseg
    have := pickBest_ge_mem (freeSegs m) (-1, 0) sl hmem
    rw [heq] at this
    have hln : 1 ≤ ln := hseg.2.1
    omega
  · intro s ln hmax hln
    have hmem := MaximalFreeRun_mem m s ln hmax
    rw [hsplit] at hmem
    rcases List.mem_append.mp hmem with hinu | hin
    · have := hu _ hinu
      simp only at this
      omega
    · rcases List.mem_cons.mp hin with hhead | hinv
      · exact le_of_eq (by rw [← hhead])
      · have hsorted : (freeSegs m).Pairwise (fun a b => a.1 < b.1) :=
          segsScan_none_sorted m.length m le_rfl 0
        rw [hsplit] at hsorted
        have hpair := (List.pairwise_append.mp hsorted).2.1
        have := (List.pairwise_cons.mp hpair).1 (s, ln) hinv
        simp only at this
        omega

/-- C1 witness: on `[P1, free, free]` the worst-fit search returns the
run `[1, 3)` of length 2; all hypotheses of `worstFit_spec` discharged at
this input. -/
theorem worstFit_spec_witness :
    MaximalFreeRun [some ⟨"1", "P1", 1⟩, none, none]
        (WorstFit [some ⟨"1", "P1", 1⟩, none, none] 1).1
        (WorstFit [some ⟨"1", "P1", 1⟩, none, none] 1).2.1 ∧
    (∀ s ln : Int, FreeSegment [some ⟨"1", "P1", 1⟩, none, none] s ln →
      ln ≤ (WorstFit [some ⟨"1", "P1", 1⟩, none, none] 1).2.1) ∧
    (∀ s ln : Int, MaximalFreeRun [some ⟨"1", "P1", 1⟩, none, none] s ln →
      ln = (WorstFit [some ⟨"1", "P1", 1⟩, none, none] 1).2.1 →
      (WorstFit [some ⟨"1", "P1", 1⟩, none, none] 1).1 ≤ s) ∧
    ((WorstFit [some ⟨"1", "P1", 1⟩, none, none] 1).2.2 = true ↔
      (WorstFit [some ⟨"1", "P1", 1⟩, none, none] 1).2.1 < 1) :=
  worstFit_spec [some ⟨"1", "P1", 1⟩, none, none] 1 (by decide) ⟨1, rfl⟩

/-! ### Traces of public operations -/

/-- A state of the whole simulation: the address space plus the
allocator-owned fields of every process object (the catalog of process
identities is fixed; only `PCB`s change). -/
structure MState where
  mem : Memory
  pcbs : List (Proc × PCB)
deriving DecidableEq, Repr

/-- The public mutating operations, naming a process by its position in
the catalog. -/
inductive Op where
  | alloc (n : Nat) (start : Int)
  | allocWF (n : Nat)
  | release (n : Nat)

/-- One public operation; `none` when the operation does not return
successfully (an error, or a panic in the release loop). -/
def applyOp (s : MState) : Op → Option MState
  | .alloc n start =>
    match s.pcbs[n]? with
    | none => none
    | some (p, st) =>
      match Allocate s.mem (some (p, st)) start with
      | .ok (m2, st2) => some ⟨m2, s.pcbs.set n (p, st2)⟩
      | .error _ => none
  | .allocWF n =>
    match s.pcbs[n]? with
    | none => none
    | some (p, st) =>
      match AllocateWorstFit s.mem (some (p, st)) with
      | .ok (m2, st2) => some ⟨m2, s.pcbs.set n (p, st2)⟩
      | .error _ => none
  | .release n =>
    match s.pcbs[n]? with
    | none => none
    | some (p, st) =>
      match ReleaseProcess s.mem p st with
      | ⟨.ok _, m2, st2⟩ => some ⟨m2, s.pcbs.set n (p, st2)⟩
      | _ => none

/-- Run a sequence of public operations, all of which must succeed. -/
def runOps : MState → List Op → Option MState
  | s, [] => some s
  | s, op :: rest =>
    match applyOp s op with
    | some s2 => runOps s2 rest
    | none => none

/-- Modelled from the spec: the initial state.  The address space is the
all-free array of `N` cells; the `Process` entity is external to the
allocator (its constructor is not part of the allocator source), and the
spec fixes its allocator-owned fields before placement: `IsAllocated`
false and `MemoryAddress` at the sentinel `-1`. -/
def initState (N : Nat) (ps : List Proc) : MState :=
  ⟨List.replicate N none, ps.map (fun p => (p, ⟨false, -1⟩))⟩

/-- Modelled from the spec: admissible process catalogs.  The spec
requires `ID` to be unique and `SizeInKB` to be a positive integer. -/
def InitOK (ps : List Proc) : Prop :=
  (ps.map Proc.id).Nodup ∧ ∀ p ∈ ps, 1 ≤ p.sizeInKB

/-- Sum of `SizeInKB` over the currently allocated processes. -/
def sumAlloc : List (Proc × PCB) → Int
  | [] => 0
  | e :: rest => (if e.2.isAllocated then e.1.sizeInKB else 0) + sumAlloc rest

/-- The state invariant maintained by every successful public operation:
allocated processes own exactly their recorded ranges, every occupied
cell points back to an allocated process covering it, unallocated
processes carry the sentinel address, IDs are unique and sizes positive. -/
structure Inv (s : MState) : Prop where
  owned : ∀ (n : Nat) (p : Proc) (st : PCB), s.pcbs[n]? = some (p, st) →
    st.isAllocated = true →
    0 ≤ st.memoryAddress ∧ st.memoryAddress + p.sizeInKB ≤ (s.mem.length : Int) ∧
    ∀ j : Int, st.memoryAddress ≤ j → j < st.memoryAddress + p.sizeInKB →
      mget s.mem j = some (some p)
  backref : ∀ (j : Int) (r : Proc), mget s.mem j = some (some r) →
    ∃ (n : Nat) (st : PCB), s.pcbs[n]? = some (r, st) ∧ st.isAllocated = true ∧
      st.memoryAddress ≤ j ∧ j < st.memoryAddress + r.sizeInKB
  unalloc : ∀ (n : Nat) (p : Proc) (st : PCB), s.pcbs[n]? = some (p, st) →
    st.isAllocated = false → st.memoryAddress = -1
  uniq : ∀ (n1 n2 : Nat) (p1 : Proc) (st1 : PCB) (p2 : Proc) (st2 : PCB),
    s.pcbs[n1]? = some (p1, st1) → s.pcbs[n2]? = some (p2, st2) → n1 ≠ n2 →
    p1.id ≠ p2.id
  sizes : ∀ (n : Nat) (p : Proc) (st : PCB), s.pcbs[n]? = some (p, st) →
    1 ≤ p.sizeInKB

/-- Conservation: free cells plus allocated sizes add up to the memory
size. -/
def Conserved (s : MState) : Prop :=
  (TotalFree s.mem : Int) + sumAlloc s.pcbs = (s.mem.length : Int)

/-! ### Counting and bookkeeping helper lemmas -/

theorem countP_set_isNone :
    ∀ (l : Memory) (n : Nat) (w v : Option Proc), l[n]? = some w →
      (l.set n v).countP (·.isNone) + (if w.isNone then 1 else 0) =
        l.countP (·.isNone) + (if v.isNone then 1 else 0) := by
  intro l
  induction l with
  | nil => intro n w v h; simp at h
  | cons c rest ih =>
    intro n w v h
    match n with
    | 0 =>
      rw [List.getElem?_cons_zero] at h
      cases h
      rw [List.set_cons_zero, List.countP_cons, List.countP_cons]
      omega
    | n + 1 =>
      rw [List.getElem?_cons_succ] at h
      rw [List.set_cons_succ, List.countP_cons, List.countP_cons]
      have := ih n w v h
      omega

theorem TotalFree_writeRun_alloc (p : Proc) :
    ∀ (k : Nat) (m : Memory) (i : Int), 0 ≤ i →
      (∀ t : Nat, t < k → mget m (i + t) = some none) →
      TotalFree (writeRun m (some p) i k) + k = TotalFree m := by
  intro k
  induction k with
  | zero => intro m i _ _; rfl
  | succ k ih =>
    intro m i hi h
    have h0 := h 0 (by omega)
    rw [show i + ((0 : Nat) : Int) = i by ring] at h0
    have hmg : m[i.toNat]? = some none := by
      rw [mget, if_pos hi] at h0
      exact h0
    rw [writeRun]
    have hset := countP_set_isNone m i.toNat none (some p) hmg
    rw [if_pos (show (none : Option Proc).isNone = true from rfl),
      if_neg (show ¬(some p : Option Proc).isNone = true from by simp)] at hset
    have hrest := ih (setCell m i (some p)) (i + 1) (by omega) (fun t ht => by
      have := h (t + 1) (by omega)
      rw [show i + ((t : Nat) + 1 : Nat) = i + 1 + (t : Int) by push_cast; ring] at this
      rwa [mget_setCell_ne _ _ _ _ (by omega)])
    unfold TotalFree at hrest ⊢
    rw [show setCell m i (some p) = m.set i.toNat (some p) from by
      unfold setCell; rw [if_pos hi]] at hrest ⊢
    omega

theorem TotalFree_writeRun_release :
    ∀ (k : Nat) (m : Memory) (i : Int), 0 ≤ i →
      (∀ t : Nat, t < k → ∃ q, mget m (i + t) = some (some q)) →
      TotalFree (writeRun m none i k) = TotalFree m + k := by
  intro k
  induction k with
  | zero => intro m i _ _; rfl
  | succ k ih =>
    intro m i hi h
    obtain ⟨q, h0⟩ := h 0 (by omega)
    rw [show i + ((0 : Nat) : Int) = i by ring] at h0
    have hmg : m[i.toNat]? = some (some q) := by
      rw [mget, if_pos hi] at h0
      exact h0
    rw [writeRun]
    have hset := countP_set_isNone m i.toNat (some q) none hmg
    rw [if_pos (show (none : Option Proc).isNone = true from rfl),
      if_neg (show ¬(some q : Option Proc).isNone = true from by simp)] at hset
    have hrest := ih (setCell m i none) (i + 1) (by omega) (fun t ht => by
      obtain ⟨r, hr⟩ := h (t + 1) (by omega)
      rw [show i + ((t : Nat) + 1 : Nat) = i + 1 + (t : Int) by push_cast; ring] at hr
      exact ⟨r, by rwa [mget_setCell_ne _ _ _ _ (by omega)]⟩)
    unfold TotalFree at hrest ⊢
    rw [show setCell m i none = m.set i.toNat none from by
      unfold setCell; rw [if_pos hi]] at hrest ⊢
    omega

theorem sumAlloc_set :
    ∀ (l : List (Proc × PCB)) (n : Nat) (p : Proc) (st : PCB) (p2 : Proc)
      (st2 : PCB), l[n]? = some (p, st) →
      sumAlloc (l.set n (p2, st2)) + (if st.isAllocated then p.sizeInKB else 0) =
        sumAlloc l + (if st2.isAllocated then p2.sizeInKB else 0) := by
  intro l
  induction l with
  | nil => intro n p st p2 st2 h; simp at h
  | cons e rest ih =>
    intro n p st p2 st2 h
    match n with
    | 0 =>
      rw [List.getElem?_cons_zero] at h
      cases h
      rw [List.set_cons_zero, sumAlloc, sumAlloc]
      dsimp only
      omega
    | n + 1 =>
      rw [List.getElem?_cons_succ] at h
      rw [List.set_cons_succ, sumAlloc, sumAlloc]
      have := ih n p st p2 st2 h
      omega

theorem ReleaseProcess_ok_inv (m : Memory) (p : Proc) (st : PCB) (b : Bool)
    (m2 : Memory) (st2 : PCB)
    (h : ReleaseProcess m p st = ⟨.ok b, m2, st2⟩) :
    checkBounds m st.memoryAddress p.sizeInKB = none ∧ p.id ≠ "" ∧
    releaseLoop p.id m st.memoryAddress p.sizeInKB.toNat false = (.ok b, m2) ∧
    st2 = ⟨false, -1⟩ := by
  unfold ReleaseProcess at h
  rcases hcb : checkBounds m st.memoryAddress p.sizeInKB with _ | e
  · rw [hcb] at h
    by_cases hid : p.id = ""
    · rw [if_pos hid] at h
      simp at h
    · rw [if_neg hid] at h
      rcases hrl : releaseLoop p.id m st.memoryAddress p.sizeInKB.toNat false
        with ⟨o, mm⟩
      rw [hrl] at h
      cases o with
      | ok b2 =>
        simp only [RResult.mk.injEq, ROutcome.ok.injEq] at h
        obtain ⟨hb2, hmm, hst⟩ := h
        refine ⟨rfl, hid, ?_, hst.symm⟩
        rw [hb2, hmm]
      | errBounds e => simp at h
      | errMissingIdentity => simp at h
      | errUnsafeRelease => simp at h
      | panicCorrupted => simp at h
      | panicNilDeref => simp at h
  · rw [hcb] at h
    simp at h

/-! ### Preservation of the invariant by each public operation -/

theorem pcbs_set_lookup (l : List (Proc × PCB)) (n : Nat) (p : Proc)
    (st st2 : PCB) (hget : l[n]? = some (p, st)) :
    ∀ (n2 : Nat) (p2 : Proc) (st3 : PCB), (l.set n (p, st2))[n2]? = some (p2, st3) →
      ∃ st4, l[n2]? = some (p2, st4) := by
  intro n2 p2 st3 hg2
  by_cases hn2 : n2 = n
  · subst hn2
    rw [List.getElem?_set_self (List.getElem?_eq_some.mp hget).1] at hg2
    obtain ⟨h1, -⟩ := Prod.mk.injEq .. ▸ Option.some.injEq .. ▸ hg2
    exact ⟨st, h1 ▸ hget⟩
  · rw [List.getElem?_set_ne (fun h => hn2 h.symm)] at hg2
    exact ⟨st3, hg2⟩

theorem allocStep_preserves (s : MState) (n : Nat) (p : Proc) (st : PCB)
    (start : Int) (m2 : Memory) (st2 : PCB)
    (hInv : Inv s) (hCons : Conserved s)
    (hget : s.pcbs[n]? = some (p, st))
    (hA : Allocate s.mem (some (p, st)) start = .ok (m2, st2)) :
    Inv ⟨m2, s.pcbs.set n (p, st2)⟩ ∧ Conserved ⟨m2, s.pcbs.set n (p, st2)⟩ ∧
      m2.length = s.mem.length := by
  obtain ⟨ha, h1, h2, hfree, hid, hm2, hst2⟩ :=
    Allocate_ok_inv s.mem p st start m2 st2 hA
  subst hst2
  have hn : n < s.pcbs.length := (List.getElem?_eq_some.mp hget).1
  have hsz : 1 ≤ p.sizeInKB := hInv.sizes n p st hget
  have hk : (p.sizeInKB.toNat : Int) = p.sizeInKB := Int.toNat_of_nonneg (by omega)
  have hlen2 : m2.length = s.mem.length := by rw [hm2]; exact length_writeRun _ _ _ _
  have hget2 : (s.pcbs.set n (p, ⟨true, start⟩))[n]? = some (p, ⟨true, start⟩) :=
    List.getElem?_set_self hn
  have hother : ∀ n2 : Nat, n2 ≠ n →
      (s.pcbs.set n (p, ⟨true, start⟩))[n2]? = s.pcbs[n2]? := fun n2 hn2 =>
    List.getElem?_set_ne (fun h => hn2 h.symm)
  have hin : ∀ j : Int, start ≤ j → j < start + p.sizeInKB →
      mget m2 j = some (some p) := by
    intro j hj1 hj2
    rw [hm2]
    exact mget_writeRun_in _ _ _ _ _ h1 hj1 (by omega) (by omega)
  have hout : ∀ j : Int, ¬(start ≤ j ∧ j < start + p.sizeInKB) →
      mget m2 j = mget s.mem j := by
    intro j hj
    rw [hm2]
    exact mget_writeRun_out _ _ _ _ _ (by omega)
  refine ⟨⟨?_, ?_, ?_, ?_, ?_⟩, ?_, hlen2⟩
  · intro n2 p2 st3 hg2 halloc
    by_cases hn2 : n2 = n
    · subst hn2
      rw [hget2] at hg2
      obtain ⟨hp2, hst3⟩ := Prod.mk.injEq .. ▸ Option.some.injEq .. ▸ hg2
      subst hp2
      subst hst3
      exact ⟨h1, by rw [hlen2]; exact h2, fun j hj1 hj2 => hin j hj1 hj2⟩
    · rw [hother n2 hn2] at hg2
      obtain ⟨b1, b2, hcells⟩ := hInv.owned n2 p2 st3 hg2 halloc
      refine ⟨b1, by rw [hlen2]; exact b2, ?_⟩
      intro j hj1 hj2
      rw [hout j ?_]
      · exact hcells j hj1 hj2
      · rintro ⟨hi1, hi2⟩
        have := hcells j hj1 hj2
        rw [hfree j hi1 hi2] at this
        simp at this
  · intro j r hcell
    by_cases hj : start ≤ j ∧ j < start + p.sizeInKB
    · have hpr := hin j hj.1 hj.2
      rw [hcell] at hpr
      have hrp : r = p := by simpa using hpr
      subst hrp
      exact ⟨n, ⟨true, start⟩, hget2, rfl, hj.1, hj.2⟩
    · rw [hout j hj] at hcell
      obtain ⟨n2, st3, hg3, halloc3, hr1, hr2⟩ := hInv.backref j r hcell
      have hn2 : n2 ≠ n := by
        intro hEq
        subst hEq
        rw [hget] at hg3
        obtain ⟨-, hst3⟩ := Prod.mk.injEq .. ▸ Option.some.injEq .. ▸ hg3
        rw [← hst3] at halloc3
        rw [ha] at halloc3
        simp at halloc3
      exact ⟨n2, st3, by rw [hother n2 hn2]; exact hg3, halloc3, hr1, hr2⟩
  · intro n2 p2 st3 hg2 hnalloc
    by_cases hn2 : n2 = n
    · subst hn2
      rw [hget2] at hg2
      obtain ⟨-, hst3⟩ := Prod.mk.injEq .. ▸ Option.some.injEq .. ▸ hg2
      rw [← hst3] at hnalloc
      simp at hnalloc
    · rw [hother n2 hn2] at hg2
      exact hInv.unalloc n2 p2 st3 hg2 hnalloc
  · intro n1 n2 p1 st3 p2 st4 hg1 hg2 hne
    obtain ⟨st5, hg5⟩ := pcbs_set_lookup s.pcbs n p st _ hget n1 p1 st3 hg1
    obtain ⟨st6, hg6⟩ := pcbs_set_lookup s.pcbs n p st _ hget n2 p2 st4 hg2
    exact hInv.uniq n1 n2 p1 st5 p2 st6 hg5 hg6 hne
  · intro n2 p2 st3 hg2
    obtain ⟨st4, hg4⟩ := pcbs_set_lookup s.pcbs n p st _ hget n2 p2 st3 hg2
    exact hInv.sizes n2 p2 st4 hg4
  · unfold Conserved at hCons ⊢
    have hTF : TotalFree m2 + p.sizeInKB.toNat = TotalFree s.mem := by
      rw [hm2]
      exact TotalFree_writeRun_alloc p p.sizeInKB.toNat s.mem start h1
        (fun t ht => hfree (start + t) (by omega) (by omega))
    have hsum := sumAlloc_set s.pcbs n p st p ⟨true, start⟩ hget
    rw [ha] at hsum
    simp at hsum
    dsimp only
    rw [hlen2]
    omega

theorem releaseStep_preserves (s : MState) (n : Nat) (p : Proc) (st : PCB)
    (b : Bool) (m2 : Memory) (st2 : PCB)
    (hInv : Inv s) (hCons : Conserved s)
    (hget : s.pcbs[n]? = some (p, st))
    (hR : ReleaseProcess s.mem p st = ⟨.ok b, m2, st2⟩) :
    Inv ⟨m2, s.pcbs.set n (p, st2)⟩ ∧ Conserved ⟨m2, s.pcbs.set n (p, st2)⟩ ∧
      m2.length = s.mem.length := by
  obtain ⟨hcb, hid, hrl, hst2⟩ := ReleaseProcess_ok_inv s.mem p st b m2 st2 hR
  subst hst2
  obtain ⟨haddr0, haddr1⟩ := (checkBounds_none_iff _ _ _).mp hcb
  have halloc : st.isAllocated = true := by
    by_contra hna
    have := hInv.unalloc n p st hget (by simpa using hna)
    omega
  have hn : n < s.pcbs.length := (List.getElem?_eq_some.mp hget).1
  have hsz : 1 ≤ p.sizeInKB := hInv.sizes n p st hget
  have hk : (p.sizeInKB.toNat : Int) = p.sizeInKB := Int.toNat_of_nonneg (by omega)
  obtain ⟨-, -, hcells⟩ := hInv.owned n p st hget halloc
  obtain ⟨-, hm2, -⟩ := releaseLoop_ok p.id p.sizeInKB.toNat s.mem
    st.memoryAddress false b m2 hrl
  have hlen2 : m2.length = s.mem.length := by rw [hm2]; exact length_writeRun _ _ _ _
  have hget2 : (s.pcbs.set n (p, ⟨false, -1⟩))[n]? = some (p, ⟨false, -1⟩) :=
    List.getElem?_set_self hn
  have hother : ∀ n2 : Nat, n2 ≠ n →
      (s.pcbs.set n (p, ⟨false, -1⟩))[n2]? = s.pcbs[n2]? := fun n2 hn2 =>
    List.getElem?_set_ne (fun h => hn2 h.symm)
  have hin : ∀ j : Int, st.memoryAddress ≤ j → j < st.memoryAddress + p.sizeInKB →
      mget m2 j = some none := by
    intro j hj1 hj2
    rw [hm2]
    exact mget_writeRun_in _ _ _ _ _ haddr0 hj1 (by omega) (by omega)
  have hout : ∀ j : Int,
      ¬(st.memoryAddress ≤ j ∧ j < st.memoryAddress + p.sizeInKB) →
      mget m2 j = mget s.mem j := by
    intro j hj
    rw [hm2]
    exact mget_writeRun_out _ _ _ _ _ (by omega)
  refine ⟨⟨?_, ?_, ?_, ?_, ?_⟩, ?_, hlen2⟩
  · intro n2 p2 st3 hg2 halloc2
    by_cases hn2 : n2 = n
    · subst hn2
      rw [hget2] at hg2
      obtain ⟨-, hst3⟩ := Prod.mk.injEq .. ▸ Option.some.injEq .. ▸ hg2
      rw [← hst3] at halloc2
      simp at halloc2
    · rw [hother n2 hn2] at hg2
      obtain ⟨b1, b2, hcells2⟩ := hInv.owned n2 p2 st3 hg2 halloc2
      refine ⟨b1, by rw [hlen2]; exact b2, ?_⟩
      intro j hj1 hj2
      rw [hout j ?_]
      · exact hcells2 j hj1 hj2
      · rintro ⟨hi1, hi2⟩
        have hc1 := hcells j hi1 hi2
        have hc2 := hcells2 j hj1 hj2
        rw [hc1] at hc2
        have hpp : p = p2 := by simpa using hc2
        exact hInv.uniq n2 n p2 st3 p st hg2 hget hn2 (by rw [← hpp])
  · intro j r hcell
    by_cases hj : st.memoryAddress ≤ j ∧ j < st.memoryAddress + p.sizeInKB
    · rw [hin j hj.1 hj.2] at hcell
      simp at hcell
    · rw [hout j hj] at hcell
      obtain ⟨n2, st3, hg3, halloc3, hr1, hr2⟩ := hInv.backref j r hcell
      have hn2 : n2 ≠ n := by
        intro hEq
        subst hEq
        rw [hget] at hg3
        obtain ⟨hpr, hst3⟩ := Prod.mk.injEq .. ▸ Option.some.injEq .. ▸ hg3
        rw [← hst3] at hr1 hr2
        rw [← hpr] at hr2
        exact hj ⟨hr1, hr2⟩
      exact ⟨n2, st3, by rw [hother n2 hn2]; exact hg3, halloc3, hr1, hr2⟩
  · intro n2 p2 st3 hg2 hnalloc
    by_cases hn2 : n2 = n
    · subst hn2
      rw [hget2] at hg2
      obtain ⟨-, hst3⟩ := Prod.mk.injEq .. ▸ Option.some.injEq .. ▸ hg2
      rw [← hst3]
    · rw [hother n2 hn2] at hg2
      exact hInv.unalloc n2 p2 st3 hg2 hnalloc
  · intro n1 n2 p1 st3 p2 st4 hg1 hg2 hne
    obtain ⟨st5, hg5⟩ := pcbs_set_lookup s.pcbs n p st _ hget n1 p1 st3 hg1
    obtain ⟨st6, hg6⟩ := pcbs_set_lookup s.pcbs n p st _ hget n2 p2 st4 hg2
    exact hInv.uniq n1 n2 p1 st5 p2 st6 hg5 hg6 hne
  · intro n2 p2 st3 hg2
    obtain ⟨st4, hg4⟩ := pcbs_set_lookup s.pcbs n p st _ hget n2 p2 st3 hg2
    exact hInv.sizes n2 p2 st4 hg4
  · unfold Conserved at hCons ⊢
    have hTF : TotalFree m2 = TotalFree s.mem + p.sizeInKB.toNat := by
      rw [hm2]
      exact TotalFree_writeRun_release p.sizeInKB.toNat s.mem st.memoryAddress
        haddr0 (fun t ht => ⟨p, hcells (st.memoryAddress + t) (by omega) (by omega)⟩)
    have hsum := sumAlloc_set s.pcbs n p st p ⟨false, -1⟩ hget
    rw [halloc] at hsum
    simp at hsum
    dsimp only
    rw [hlen2]
    omega

theorem applyOp_preserves (s s2 : MState) (op : Op)
    (hInv : Inv s) (hCons : Conserved s) (h : applyOp s op = some s2) :
    Inv s2 ∧ Conserved s2 ∧ s2.mem.length = s.mem.length := by
  cases op with
  | alloc n start =>
    simp only [applyOp] at h
    rcases hget : s.pcbs[n]? with _ | ⟨p, st⟩
    · rw [hget] at h; simp at h
    rw [hget] at h
    dsimp only at h
    rcases hA : Allocate s.mem (some (p, st)) start with e | ⟨m2, st2⟩
    · rw [hA] at h; simp at h
    rw [hA] at h
    simp only [Option.some.injEq] at h
    rw [← h]
    exact allocStep_preserves s n p st start m2 st2 hInv hCons hget hA
  | allocWF n =>
    simp only [applyOp] at h
    rcases hget : s.pcbs[n]? with _ | ⟨p, st⟩
    · rw [hget] at h; simp at h
    rw [hget] at h
    dsimp only at h
    rcases hA : AllocateWorstFit s.mem (some (p, st)) with e | ⟨m2, st2⟩
    · rw [hA] at h; simp at h
    rw [hA] at h
    simp only [Option.some.injEq] at h
    rw [← h]
    obtain ⟨start, hA2⟩ := AllocateWorstFit_ok_inv s.mem p st m2 st2 hA
    exact allocStep_preserves s n p st start m2 st2 hInv hCons hget hA2
  | release n =>
    simp only [applyOp] at h
    rcases hget : s.pcbs[n]? with _ | ⟨p, st⟩
    · rw [hget] at h; simp at h
    rw [hget] at h
    dsimp only at h
    rcases hR : ReleaseProcess s.mem p st with ⟨o, m2, st2⟩
    rw [hR] at h
    cases o with
    | ok b =>
      simp only [Option.some.injEq] at h
      rw [← h]
      exact releaseStep_preserves s n p st b m2 st2 hInv hCons hget hR
    | errBounds e => simp at h
    | errMissingIdentity => simp at h
    | errUnsafeRelease => simp at h
    | panicCorrupted => simp at h
    | panicNilDeref => simp at h

theorem runOps_preserves :
    ∀ (ops : List Op) (s s2 : MState), Inv s → Conserved s →
      runOps s ops = some s2 →
      Inv s2 ∧ Conserved s2 ∧ s2.mem.length = s.mem.length := by
  intro ops
  induction ops with
  | nil =>
    intro s s2 hInv hCons h
    rw [runOps] at h
    simp only [Option.some.injEq] at h
    rw [← h]
    exact ⟨hInv, hCons, rfl⟩
  | cons op rest ih =>
    intro s s2 hInv hCons h
    rw [runOps] at h
    rcases hstep : applyOp s op with _ | s3
    · rw [hstep] at h; simp at h
    rw [hstep] at h
    obtain ⟨hInv3, hCons3, hlen3⟩ := applyOp_preserves s s3 op hInv hCons hstep
    obtain ⟨hInv2, hCons2, hlen2⟩ := ih s3 s2 hInv3 hCons3 h
    exact ⟨hInv2, hCons2, by rw [hlen2, hlen3]⟩

theorem sumAlloc_map_unalloc :
    ∀ ps : List Proc, sumAlloc (ps.map (fun p => (p, ⟨false, -1⟩))) = 0 := by
  intro ps
  induction ps with
  | nil => rfl
  | cons p rest ih =>
    rw [List.map_cons, sumAlloc, ih]
    simp

theorem initState_ok (N : Nat) (ps : List Proc) (h : InitOK ps) :
    Inv (initState N ps) ∧ Conserved (initState N ps) ∧
      (initState N ps).mem.length = N := by
  obtain ⟨hnd, hsz⟩ := h
  have hlook : ∀ (n : Nat) (p : Proc) (st : PCB),
      (initState N ps).pcbs[n]? = some (p, st) →
      ps[n]? = some p ∧ st = ⟨false, -1⟩ := by
    intro n p st hg
    rw [show (initState N ps).pcbs = ps.map (fun p => (p, ⟨false, -1⟩)) from rfl,
      List.getElem?_map] at hg
    rcases hq : ps[n]? with _ | q
    · rw [hq] at hg; simp at hg
    · rw [hq] at hg
      rw [show Option.map (fun p => (p, (⟨false, -1⟩ : PCB))) (some q) =
        some (q, ⟨false, -1⟩) from rfl] at hg
      obtain ⟨h1, h2⟩ := Prod.mk.injEq .. ▸ Option.some.injEq .. ▸ hg
      exact ⟨by rw [h1], h2.symm⟩
  refine ⟨⟨?_, ?_, ?_, ?_, ?_⟩, ?_, by simp [initState]⟩
  · intro n p st hg halloc
    obtain ⟨-, hst⟩ := hlook n p st hg
    rw [hst] at halloc
    simp at halloc
  · intro j r hcell
    rw [show (initState N ps).mem = List.replicate N none from rfl, mget] at hcell
    split at hcell
    · rw [List.getElem?_replicate] at hcell
      split at hcell <;> simp at hcell
    · simp at hcell
  · intro n p st hg _
    obtain ⟨-, hst⟩ := hlook n p st hg
    rw [hst]
  · intro n1 n2 p1 st1 p2 st2 hg1 hg2 hne
    obtain ⟨hq1, -⟩ := hlook n1 p1 st1 hg1
    obtain ⟨hq2, -⟩ := hlook n2 p2 st2 hg2
    have hid1 : (ps.map Proc.id)[n1]? = some p1.id := by
      rw [List.getElem?_map, hq1]; rfl
    have hid2 : (ps.map Proc.id)[n2]? = some p2.id := by
      rw [List.getElem?_map, hq2]; rfl
    have hlen1 : n1 < (ps.map Proc.id).length :=
      (List.getElem?_eq_some.mp hid1).1
    have hlen2 : n2 < (ps.map Proc.id).length :=
      (List.getElem?_eq_some.mp hid2).1
    intro hEq
    rcases Nat.lt_or_ge n1 n2 with hlt | hge
    · have := List.nodup_iff_getElem?_ne_getElem?.mp hnd n1 n2 hlt hlen2
      rw [hid1, hid2, hEq] at this
      exact this rfl
    · have hlt2 : n2 < n1 := by omega
      have := List.nodup_iff_getElem?_ne_getElem?.mp hnd n2 n1 hlt2 hlen1
      rw [hid1, hid2, hEq] at this
      exact this rfl
  · intro n p st hg
    obtain ⟨hq, -⟩ := hlook n p st hg
    exact hsz p (List.getElem?_mem hq)
  · unfold Conserved
    rw [show (initState N ps).mem = List.replicate N none from rfl,
      show (initState N ps).pcbs = ps.map (fun p => (p, ⟨false, -1⟩)) from rfl,
      sumAlloc_map_unalloc]
    unfold TotalFree
    rw [List.countP_replicate]
    simp

/-- C3: starting from the all-free address space with an admissible
process catalog (unique IDs, positive sizes), after any sequence of
successful public operations: allocated processes with distinct IDs never
own overlapping cells; every occupied cell belongs to exactly one
allocated process whose recorded range covers it; and each allocated
process's occupied cells are exactly the contiguous run of `SizeInKB`
cells starting at its `MemoryAddress`. -/
theorem exclusivity_of_runs (N : Nat) (ps : List Proc) (ops : List Op)
    (s2 : MState) (h0 : InitOK ps)
    (hrun : runOps (initState N ps) ops = some s2) :
    (∀ (n1 n2 : Nat) (p1 : Proc) (st1 : PCB) (p2 : Proc) (st2 : PCB),
      s2.pcbs[n1]? = some (p1, st1) → s2.pcbs[n2]? = some (p2, st2) →
      st1.isAllocated = true → st2.isAllocated = true → p1.id ≠ p2.id →
      ∀ j : Int, ¬(st1.memoryAddress ≤ j ∧ j < st1.memoryAddress + p1.sizeInKB ∧
        st2.memoryAddress ≤ j ∧ j < st2.memoryAddress + p2.sizeInKB)) ∧
    (∀ (j : Int) (r : Proc), mget s2.mem j = some (some r) →
      ∃! n : Nat, ∃ st : PCB, s2.pcbs[n]? = some (r, st) ∧
        st.isAllocated = true ∧
        st.memoryAddress ≤ j ∧ j < st.memoryAddress + r.sizeInKB) ∧
    (∀ (n : Nat) (p : Proc) (st : PCB), s2.pcbs[n]? = some (p, st) →
      st.isAllocated = true →
      ∀ j : Int, mget s2.mem j = some (some p) ↔
        (st.memoryAddress ≤ j ∧ j < st.memoryAddress + p.sizeInKB)) := by
  obtain ⟨hInv0, hCons0, -⟩ := initState_ok N ps h0
  obtain ⟨hInv, -, -⟩ := runOps_preserves ops (initState N ps) s2 hInv0 hCons0 hrun
  refine ⟨?_, ?_, ?_⟩
  · intro n1 n2 p1 st1 p2 st2 hg1 hg2 ha1 ha2 hne j
    rintro ⟨hj1, hj2, hj3, hj4⟩
    have hc1 := (hInv.owned n1 p1 st1 hg1 ha1).2.2 j hj1 hj2
    have hc2 := (hInv.owned n2 p2 st2 hg2 ha2).2.2 j hj3 hj4
    rw [hc1] at hc2
    have hpp : p1 = p2 := by simpa using hc2
    exact hne (by rw [hpp])
  · intro j r hcell
    obtain ⟨n, st, hg, ha, hr1, hr2⟩ := hInv.backref j r hcell
    refine ⟨n, ⟨st, hg, ha, hr1, hr2⟩, ?_⟩
    rintro n2 ⟨st2, hg2, ha2, hq1, hq2⟩
    by_contra hne
    exact hInv.uniq n2 n r st2 r st hg2 hg hne rfl
  · intro n p st hg ha j
    constructor
    · intro hcell
      obtain ⟨n2, st2, hg2, ha2, hr1, hr2⟩ := hInv.backref j p hcell
      have hEq : n2 = n := by
        by_contra hne
        exact hInv.uniq n2 n p st2 p st hg2 hg hne rfl
      subst hEq
      rw [hg] at hg2
      obtain ⟨-, hst⟩ := Prod.mk.injEq .. ▸ Option.some.injEq .. ▸ hg2
      rw [← hst] at hr1 hr2
      exact ⟨hr1, hr2⟩
    · intro ⟨hj1, hj2⟩
      exact (hInv.owned n p st hg ha).2.2 j hj1 hj2

/-- C8: in every state reachable from the all-free address space of size
`N` by successful public operations, `TotalFree` plus the sum of
`SizeInKB` over the currently allocated processes equals `N`. -/
theorem conservation_of_runs (N : Nat) (ps : List Proc) (ops : List Op)
    (s2 : MState) (h0 : InitOK ps)
    (hrun : runOps (initState N ps) ops = some s2) :
    (TotalFree s2.mem : Int) + sumAlloc s2.pcbs = (N : Int) := by
  obtain ⟨hInv0, hCons0, hlen0⟩ := initState_ok N ps h0
  obtain ⟨-, hCons, hlen⟩ := runOps_preserves ops (initState N ps) s2 hInv0 hCons0 hrun
  unfold Conserved at hCons
  rw [hCons, hlen, hlen0]

/-- C3 witness: a concrete trace — allocate A at 0, worst-fit B, release
A on a 4-cell space — whose final state satisfies the exclusivity
conclusion, via `exclusivity_of_runs`. -/
theorem exclusivity_of_runs_witness :
    InitOK [⟨"1", "A", 2⟩, ⟨"2", "B", 2⟩] ∧
    runOps (initState 4 [⟨"1", "A", 2⟩, ⟨"2", "B", 2⟩])
        [Op.alloc 0 0, Op.allocWF 1, Op.release 0] =
      some ⟨[none, none, some ⟨"2", "B", 2⟩, some ⟨"2", "B", 2⟩],
        [(⟨"1", "A", 2⟩, ⟨false, -1⟩), (⟨"2", "B", 2⟩, ⟨true, 2⟩)]⟩ ∧
    (∀ j : Int,
      mget [none, none, some ⟨"2", "B", 2⟩, some ⟨"2", "B", 2⟩] j =
          some (some ⟨"2", "B", 2⟩) ↔
        ((2 : Int) ≤ j ∧ j < 2 + 2)) :=
  ⟨⟨by decide, by decide⟩, by decide,
    (exclusivity_of_runs 4 [⟨"1", "A", 2⟩, ⟨"2", "B", 2⟩]
        [Op.alloc 0 0, Op.allocWF 1, Op.release 0]
        ⟨[none, none, some ⟨"2", "B", 2⟩, some ⟨"2", "B", 2⟩],
          [(⟨"1", "A", 2⟩, ⟨false, -1⟩), (⟨"2", "B", 2⟩, ⟨true, 2⟩)]⟩
        ⟨by decide, by decide⟩ (by decide)).2.2 1 ⟨"2", "B", 2⟩ ⟨true, 2⟩
        (by decide) rfl⟩

/-- C8 witness: on the same concrete trace the final state has 2 free
cells and one allocated process of size 2 on a space of size 4, via
`conservation_of_runs`. -/
theorem conservation_of_runs_witness :
    InitOK [⟨"1", "A", 2⟩, ⟨"2", "B", 2⟩] ∧
    (TotalFree [none, none, some ⟨"2", "B", 2⟩, some ⟨"2", "B", 2⟩] : Int) +
        sumAlloc [(⟨"1", "A", 2⟩, ⟨false, -1⟩), (⟨"2", "B", 2⟩, ⟨true, 2⟩)] =
      (4 : Int) :=
  ⟨⟨by decide, by decide⟩,
    conservation_of_runs 4 [⟨"1", "A", 2⟩, ⟨"2", "B", 2⟩]
      [Op.alloc 0 0, Op.allocWF 1, Op.release 0]
      ⟨[none, none, some ⟨"2", "B", 2⟩, some ⟨"2", "B", 2⟩],
        [(⟨"1", "A", 2⟩, ⟨false, -1⟩), (⟨"2", "B", 2⟩, ⟨true, 2⟩)]⟩
      ⟨by decide, by decide⟩ (by decide)⟩

end Dino
